import Mathlib

/-!
Verification of `ngsutils/sequence.py` (diazlab/ngs-tools).

Shallow embedding conventions:
* An encoded sequence (`np.ndarray` of shape `[4, L]`, boolean) is stored
  column-major as `List (List Bool)`: one 4-entry strict-base mask per
  position.  This is a transposition of the numpy layout; all source
  operations act per position so the translation is direct.
* Quality arrays (`np.ndarray` of dtype `uint8`) are `List ℕ` with values
  reduced mod 256 at construction, mirroring the `uint8` cast.
* Python exceptions are modelled with `Except String`; the message text
  mirrors the source.
* numpy float thresholds are modelled with `ℚ`; the probabilistic phase 3
  of whitelist correction (which uses `np.log10` / `np.power` on floats)
  is abstracted as a parameter, see `correct_sequences_to_whitelist`.
-/

namespace NgsTools

/-- `NUCLEOTIDES_STRICT` from the source. -/
def NUCLEOTIDES_STRICT : List Char := ['A', 'C', 'G', 'T']

/-- `NUCLEOTIDES_PERMISSIVE` from the source. -/
def NUCLEOTIDES_PERMISSIVE : List Char :=
  ['R', 'Y', 'S', 'W', 'K', 'M', 'B', 'D', 'H', 'V', 'N']

/-- `NUCLEOTIDES = NUCLEOTIDES_STRICT + NUCLEOTIDES_PERMISSIVE`. -/
def NUCLEOTIDES : List Char := NUCLEOTIDES_STRICT ++ NUCLEOTIDES_PERMISSIVE

/-- The `NUCLEOTIDES_AMBIGUOUS` dict from the source, as an association list. -/
def NUCLEOTIDES_AMBIGUOUS : List (Char × List Char) :=
  [('N', ['A', 'C', 'G', 'T']),
   ('R', ['A', 'G']),
   ('Y', ['C', 'T']),
   ('S', ['G', 'C']),
   ('W', ['A', 'T']),
   ('K', ['G', 'T']),
   ('M', ['A', 'C']),
   ('B', ['C', 'G', 'T']),
   ('D', ['A', 'G', 'T']),
   ('H', ['A', 'C', 'T']),
   ('V', ['A', 'C', 'G'])]

/-- `NUCLEOTIDE_MASKS[n]`: the boolean vector, indexed by the strict bases,
`[_n in NUCLEOTIDES_AMBIGUOUS.get(n, [n]) for _n in NUCLEOTIDES_STRICT]`. -/
def nucleotide_mask (c : Char) : List Bool :=
  NUCLEOTIDES_STRICT.map
    (fun b => ((NUCLEOTIDES_AMBIGUOUS.lookup c).getD [c]).contains b)

/-- An encoded sequence: one strict-base mask (length 4) per position. -/
abbrev EncSeq := List (List Bool)

/-- The pure core of `_sequence_to_array`: upper-case, then one mask column
per input symbol (no padding). -/
def mask_array (sequence : String) : EncSeq :=
  (sequence.toList.map Char.toUpper).map nucleotide_mask

/-- `_sequence_to_array(sequence, l)`.  Raises `SequenceError` on a symbol
outside `NUCLEOTIDES`; the array has `l or len(sequence)` columns (an `l` of
`None` or `0` means the sequence length); columns beyond the sequence are the
all-`False` zero initialisation.  If `l` is smaller than the sequence length
the column store `arr[mask, i]` is out of bounds (`IndexError`). -/
def sequence_to_array (sequence : String) (l : Option ℕ) : Except String EncSeq :=
  let s := sequence.toList.map Char.toUpper
  if s.any (fun c => !(NUCLEOTIDES.contains c)) then
    Except.error "Unknown nucleotide"
  else
    let L : ℕ := match l with
      | some v => if v = 0 then s.length else v
      | none => s.length
    if L < s.length then Except.error "IndexError"
    else Except.ok (mask_array sequence ++ List.replicate (L - s.length) (List.replicate 4 false))

/-- `_qualities_to_array(qualities, l)`.  The input is already numeric (the
textual decoding is the external quality codec); values are cast to `uint8`
(mod 256).  A truthy `l` smaller than the input length raises; a truthy `l`
otherwise zero-pads on the right (`arr.resize(l)`); `l = 0` is falsy and is
ignored exactly as `None` is. -/
def qualities_to_array (qualities : List ℕ) (l : Option ℕ) : Except String (List ℕ) :=
  let truthy : Bool := match l with
    | some v => v ≠ 0
    | none => false
  if truthy ∧ l.getD 0 < qualities.length then
    Except.error "`l` can not be smaller than length of `qualities`"
  else
    let arr := qualities.map (· % 256)
    if truthy then Except.ok (arr ++ List.replicate (l.getD 0 - arr.length) 0)
    else Except.ok arr

/-- `np.argmax` over a list: index of the first occurrence of the maximum. -/
def argmax_aux (bi bv i : ℕ) : List ℕ → ℕ
  | [] => bi
  | v :: vs => if bv < v then argmax_aux i v (i + 1) vs else argmax_aux bi bv (i + 1) vs

/-- `np.argmax` over a list (`0` for the empty list, which numpy rejects;
never used on an empty list here). -/
def argmax_idx : List ℕ → ℕ
  | [] => 0
  | v :: vs => argmax_aux 0 v 1 vs

/-- Booleans as the integers numpy's `argmax` sees on a boolean array. -/
def bools_to_nats (col : List Bool) : List ℕ :=
  col.map (fun b => if b then 1 else 0)

/-- `_most_likely_sequence(positional_probs)`: per position (column), the
strict base of maximal score, first index on ties. -/
def most_likely_sequence (positional_probs : List (List ℕ)) : String :=
  String.mk (positional_probs.map (fun col => NUCLEOTIDES_STRICT.getD (argmax_idx col) 'A'))

/-- The strict base at the first `true` of a mask column (`'A'` would be the
fallback on an all-`false` column, which no accepted symbol produces). -/
def first_base_of_mask (m : List Bool) : Char :=
  match (NUCLEOTIDES_STRICT.zip m).find? (fun bm => bm.2) with
  | some bm => bm.1
  | none => 'A'

/-- The amended C4 wording for one symbol: the first strict base in
`A,C,G,T` order consistent with the upper-cased symbol.  Spec-side
characterisation, compared below with the source's `argmax` pipeline. -/
def first_consistent_base (c : Char) : Char :=
  first_base_of_mask (nucleotide_mask c.toUpper)

/-- The amended C4 wording for a read: the per-position most-likely call. -/
def most_likely_call (s : String) : String :=
  String.mk (s.toList.map first_consistent_base)

/-- `_calculate_positional_probs(sequences, qualities)`: per position and
strict base, the sum of the quality of every read whose mask holds that base
(`np.add(..., qual, out=..., where=seq)`), on the shape of the first read. -/
def calculate_positional_probs (pool : List (EncSeq × List ℕ)) : List (List ℕ) :=
  match pool with
  | [] => []
  | p0 :: _ =>
    (List.range p0.1.length).map (fun pos =>
      (List.range 4).map (fun b =>
        (pool.map (fun p =>
          if (p.1.getD pos []).getD b false then p.2.getD pos 0 else 0)).sum))

/-- Minimum of a list, Python's `min` (the empty case never occurs). -/
def list_min : List ℕ → ℕ
  | [] => 0
  | v :: vs => vs.foldl Nat.min v

/-- Per-read mismatch cost against the provisional consensus:
`np.sum(qual[consensus_indices != seq.argmax(axis=0)])`. -/
def mismatch_cost (cons_idx seq_idx qual : List ℕ) : ℕ :=
  (((cons_idx.zip seq_idx).zip qual).map
    (fun x => if x.1.1 = x.1.2 then 0 else x.2)).sum

/-- The inner `_call_consensus(seqs, quals, thresh)` of
`call_consensus_with_qualities`.  A reads/qualities pool of one element short
circuits; otherwise: positional voting, per-read mismatch cost, assignment at
cost `<= max(thresh, min(probs))`, and a second voting pass over the assigned
subset.  (The empty pool indexes `seqs[0]` in Python and so never returns; the
loop below only calls this on a non-empty pool.) -/
def call_consensus (pool : List (EncSeq × List ℕ)) (thresh : ℚ) : String × List Bool :=
  match pool with
  | [] => ("", [])
  | [p] => (most_likely_sequence (p.1.map bools_to_nats), [true])
  | _ =>
    let positional_probs := calculate_positional_probs pool
    let cons_idx := positional_probs.map argmax_idx
    let probs := pool.map (fun p =>
      mismatch_cost cons_idx (p.1.map (fun col => argmax_idx (bools_to_nats col))) p.2)
    let m := list_min probs
    let assigned := probs.map (fun (c : ℕ) => decide ((c : ℚ) ≤ max thresh (m : ℚ)))
    let assigned_pool := (pool.zip assigned).filterMap
      (fun x => if x.2 then some x.1 else none)
    (most_likely_sequence (calculate_positional_probs assigned_pool), assigned)

/-- `xs[~flags]`: the entries of `xs` whose flag is `False`. -/
def keep_false (xs : List α) (flags : List Bool) : List α :=
  (xs.zip flags).filterMap (fun x => if x.2 then none else some x.1)

/-- `xs[flags]`: the entries of `xs` whose flag is `True`. -/
def keep_true (xs : List α) (flags : List Bool) : List α :=
  (xs.zip flags).filterMap (fun x => if x.2 then some x.1 else none)

/-- `assignments[[index_transform[i] for i in assigned_indices]] = label`. -/
def set_assigned (assignments : List ℤ) (transform : List ℕ) (flags : List Bool)
    (label : ℤ) : List ℤ :=
  (transform.zip flags).foldl
    (fun acc tf => if tf.2 then acc.set tf.1 label else acc) assignments

/-- The `while True` loop of `call_consensus_with_qualities` (source lines
188-208), with an explicit fuel: each recursive call is one loop round, and
`none` means the fuel ran out.  A fuel of the initial pool size always
suffices (each round assigns and removes at least one pool member). -/
def consensus_loop (thresh : ℚ) :
    ℕ → List (EncSeq × List ℕ) → List ℕ → List String → List ℤ →
    Option (List String × List ℤ)
  | 0, _, _, _, _ => none
  | fuel + 1, pool, transform, consensuses, assignments =>
    let r := call_consensus pool thresh
    let label : ℕ := consensuses.indexOf r.1
    let consensuses' := if r.1 ∈ consensuses then consensuses else consensuses ++ [r.1]
    let assignments' := set_assigned assignments transform r.2 (label : ℤ)
    if r.2.all id then some (consensuses', assignments')
    else
      consensus_loop thresh fuel (keep_false pool r.2) (keep_false transform r.2)
        consensuses' assignments'

/-- `call_consensus_with_qualities(sequences, qualities, q_threshold,
proportion)` (the `return_qualities=False` form).  Validates counts and
per-read lengths, takes `l = max(len(s) for s in sequences)` (a `ValueError`
on an empty input), encodes reads padded to `l`, and runs the iterative
consensus loop with threshold `q_threshold * (l * proportion)`. -/
def call_consensus_with_qualities (sequences : List String) (qualities : List (List ℕ))
    (q_threshold : ℕ) (proportion : ℚ) : Except String (List String × List ℤ) :=
  if sequences.length ≠ qualities.length then
    Except.error "number of sequences and qualities differ"
  else if (sequences.zip qualities).any (fun sq => sq.1.length ≠ sq.2.length) then
    Except.error "length of each sequence must match length of each quality string"
  else if sequences.isEmpty then
    Except.error "max() arg is an empty sequence"
  else
    let l := (sequences.map String.length).foldl Nat.max 0
    match sequences.mapM (fun s => sequence_to_array s (some l)) with
    | Except.error e => Except.error e
    | Except.ok sequences_arrays =>
      match qualities.mapM (fun q => qualities_to_array q (some l)) with
      | Except.error e => Except.error e
      | Except.ok qualities_arrays =>
        let threshold : ℚ := (q_threshold : ℚ) * ((l : ℚ) * proportion)
        match consensus_loop threshold sequences.length
            (sequences_arrays.zip qualities_arrays)
            (List.range sequences.length) []
            (List.replicate sequences.length (-1)) with
        | some r => Except.ok r
        | none => Except.error "consensus loop fuel exhausted"

/-- `_mismatch_mask(sequence1, sequence2)`: position `p` is `true` iff the
strict-base sets at `p` share no base (`~(s1 & s2)` AND-reduced over the four
base rows). -/
def mismatch_mask (sequence1 sequence2 : EncSeq) : List Bool :=
  (sequence1.zip sequence2).map
    (fun c => (c.1.zip c.2).all (fun bb => !(bb.1 && bb.2)))

/-- `mask.sum()` for a boolean mask. -/
def mask_sum (mask : List Bool) : ℕ := mask.count true

/-- `_mismatch_masks(sequence, whitelist, d)`: the whitelist entries (in
ascending index order) whose mismatch count is `<= d`, as parallel lists of
indices and masks (returned zipped here; the source returns two parallel
lists). -/
def mismatch_masks (sequence : EncSeq) (whitelist : List EncSeq) (d : ℕ) :
    List (ℕ × List Bool) :=
  whitelist.enum.filterMap (fun ib =>
    let mask := mismatch_mask sequence ib.2
    if d < mask_sum mask then none else some (ib.1, mask))

/-- `_hamming_distance` on encoded arrays. -/
def hamming_distance_arr (sequence1 sequence2 : EncSeq) : ℕ :=
  mask_sum (mismatch_mask sequence1 sequence2)

/-- `hamming_distance(sequence1, sequence2)` on strings: unequal lengths
raise `SequenceError`, and either operand may raise on an unknown symbol. -/
def hamming_distance (sequence1 sequence2 : String) : Except String ℕ :=
  if sequence1.length ≠ sequence2.length then Except.error "Unequal lengths"
  else
    match sequence_to_array sequence1 none with
    | Except.error e => Except.error e
    | Except.ok a1 =>
      match sequence_to_array sequence2 none with
      | Except.error e => Except.error e
      | Except.ok a2 => Except.ok (hamming_distance_arr a1 a2)

/-- `m[i][j]` of a matrix stored as a list of rows, `0` out of range. -/
def entry (m : List (List ℕ)) (i j : ℕ) : ℕ := (m.getD i []).getD j 0

/-- `m[i, j] = v` on a list-of-rows matrix. -/
def set_entry (m : List (List ℕ)) (i j : ℕ) (v : ℕ) : List (List ℕ) :=
  m.set i ((m.getD i []).set j v)

/-- One write of the `_pairwise_hamming_distances` loop body:
`distances[i, j] = d; distances[j, i] = d`. -/
def pair_write (arrs : List EncSeq) (m : List (List ℕ)) (i j : ℕ) : List (List ℕ) :=
  let dist := hamming_distance_arr (arrs.getD i []) (arrs.getD j [])
  set_entry (set_entry m i j dist) j i dist

/-- The inner loop `for j in range(i, n)` of `_pairwise_hamming_distances`. -/
def pair_row (arrs : List EncSeq) (n : ℕ) (m : List (List ℕ)) (i : ℕ) : List (List ℕ) :=
  (List.range' i (n - i)).foldl (fun m j => pair_write arrs m i j) m

/-- The double loop of `_pairwise_hamming_distances`: starting from a zero
`n × n` matrix, for every `i` and every `j` in `[i, n)` write the distance to
both `(i, j)` and `(j, i)`. -/
def pairwise_loop (arrs : List EncSeq) : List (List ℕ) :=
  let n := arrs.length
  (List.range n).foldl (fun m i => pair_row arrs n m i)
    (List.replicate n (List.replicate n 0))

/-- `pairwise_hamming_distances(sequences)`: validates uniform length, then
runs the mirrored double loop.  (On the empty list the generator inside
`any(...)` never evaluates `sequences[0]`, so the check passes and a `0 × 0`
matrix is returned.) -/
def pairwise_hamming_distances (sequences : List String) : Except String (List (List ℕ)) :=
  if sequences.any (fun s => s.length ≠ (sequences.headD "").length) then
    Except.error "All sequences must be equal length"
  else
    match sequences.mapM (fun s => sequence_to_array s none) with
    | Except.error e => Except.error e
    | Except.ok arrs => Except.ok (pairwise_loop arrs)

/-- `qualities[mask]`: boolean-mask selection. -/
def mask_select (qualities : List ℕ) (mask : List Bool) : List ℕ :=
  keep_true qualities mask

/-- One candidate's `log10_likelihood` in `_correct_to_whitelist`:
`log10_proportions[i] + (-(qualities[mask].sum() / 10))`. -/
def log10_likelihood (qualities : List ℕ) (log10_proportions : List ℚ)
    (im : ℕ × List Bool) : ℚ :=
  log10_proportions.getD im.1 0 + (-(((mask_select qualities im.2).sum : ℚ) / 10))

/-- The candidate-selection loop of `_correct_to_whitelist`: running maximum
of `log10_likelihood` with a strict `>` update, starting from
`best_bc = -1`, `max_log10_likelihood = -inf` (the bottom of `WithBot ℚ`).
Only the selected index (the first component of the source's return value) is
modelled; the `log10_confidence` part of the return value is floating point
(`np.log10(np.power(10, ...).sum())`) and is not needed by any claim.
`log10_proportions` is an input array in the source and is taken here as
rationals. -/
def correct_to_whitelist_best (qualities : List ℕ)
    (candidates : List (ℕ × List Bool)) (log10_proportions : List ℚ) : ℤ :=
  (candidates.foldl
    (fun (st : ℤ × WithBot ℚ) im =>
      if st.2 < ((log10_likelihood qualities log10_proportions im : ℚ) : WithBot ℚ)
      then ((im.1 : ℤ), ((log10_likelihood qualities log10_proportions im : ℚ) : WithBot ℚ))
      else st)
    (-1, ⊥)).1

/-- `qualities[mask]` under numpy's boolean-indexing shape rule: a boolean
index must have exactly the indexed array's length, otherwise `IndexError`. -/
def mask_select_checked (qualities : List ℕ) (mask : List Bool) :
    Except String (List ℕ) :=
  if mask.length = qualities.length then Except.ok (keep_true qualities mask)
  else Except.error "IndexError: boolean index did not match indexed array"

/-- `.reshape(1, -1)` on a (rectangular, nonempty) stack of mask rows: a
single row holding all entries in order. -/
def reshape_1_row (masks : List (List Bool)) : List (List Bool) :=
  [masks.flatten]

/-- The candidate loop of `_correct_to_whitelist` with the boolean selection
`qualities[mask]` subject to numpy's shape rule (`mask_select_checked`);
otherwise the same running-maximum state as `correct_to_whitelist_best`. -/
def correct_loop_checked (qualities : List ℕ) (log10_proportions : List ℚ) :
    List (ℕ × List Bool) → ℤ × WithBot ℚ → Except String (ℤ × WithBot ℚ)
  | [], st => Except.ok st
  | im :: rest, st =>
    match mask_select_checked qualities im.2 with
    | Except.error e => Except.error e
    | Except.ok sel =>
      let ll : ℚ := log10_proportions.getD im.1 0 + (-((sel.sum : ℚ) / 10))
      correct_loop_checked qualities log10_proportions rest
        (if st.2 < (ll : WithBot ℚ) then ((im.1 : ℤ), (ll : WithBot ℚ)) else st)

/-- The phase-3 call of `_correct_to_whitelist` exactly as the program makes
it (source line 475): a read's cached parallel `indices`/`masks` are passed
with the `(k, L)` mask stack first `.reshape(1, -1)`-ed into a single row of
length `k*L`, and the `zip(indices, masks)` inside `_correct_to_whitelist`
then pairs only `indices[0]` with that row. -/
def phase3_call (qualities : List ℕ) (cached : List (ℕ × List Bool))
    (log10_proportions : List ℚ) : Except String ℤ :=
  match correct_loop_checked qualities log10_proportions
      ((cached.map Prod.fst).zip (reshape_1_row (cached.map Prod.snd))) (-1, ⊥) with
  | Except.error e => Except.error e
  | Except.ok st => Except.ok st.1

/-- Code-point lexicographic comparison on character lists: Python's string
`<=` (kernel-reducible, unlike `String.ltb`). -/
def chars_le : List Char → List Char → Bool
  | [], _ => true
  | _ :: _, [] => false
  | a :: as, b :: bs =>
    if a.toNat < b.toNat then true
    else if b.toNat < a.toNat then false
    else chars_le as bs

/-- Python's `<=` on strings. -/
def string_le (a b : String) : Bool := chars_le a.toList b.toList

/-- Insert into an ascending list (helper for `sort_strings`). -/
def insert_sorted (x : String) : List String → List String
  | [] => [x]
  | y :: ys => if string_le x y then x :: y :: ys else y :: insert_sorted x ys

/-- Ascending insertion sort.  Python's `sorted` is a comparison sort; on the
duplicate-free key list it is applied to, every comparison sort produces the
same ascending list, and insertion sort keeps the definition
kernel-reducible. -/
def sort_strings : List String → List String
  | [] => []
  | x :: xs => insert_sorted x (sort_strings xs)

/-- `sorted(counts.keys())` where `counts = Counter(sequences)`: the distinct
reads in ascending string order (`Counter` keys are the distinct reads in
first-occurrence order). -/
def sorted_unique (sequences : List String) : List String :=
  sort_strings sequences.dedup

/-- The state built by step 1 of `correct_sequences_to_whitelist`
(source lines 427-459). -/
structure Step1Result where
  /-- `mismatch_cache`: per distinct read, the whitelist neighbors within
  distance `d` (index/mask pairs, ascending index). -/
  mismatch_cache : List (String × List (ℕ × List Bool))
  /-- `whitelist_counts` (an integer numpy array: each in-place `+=` of the
  float `counts[whitelist[i]] / len(match_indices)` truncates the sum). -/
  whitelist_counts : List ℤ
  /-- `matches`: distinct read -> whitelist entry, for unique exact matches. -/
  match_table : List (String × String)
  /-- `corrections` after the exact-match pass: per input read, the matched
  whitelist entry if its distinct read has a unique exact match. -/
  corrections : List (Option String)

/-- The distance-`0` matches of one cached read:
`indices[masks.sum(axis=1) == 0]`. -/
def match_indices_of (cached : List (ℕ × List Bool)) : List ℕ :=
  cached.filterMap (fun im => if mask_sum im.2 = 0 then some im.1 else none)

/-- The `matches[...]` entry contributed by one distinct read's loop
iteration, if any: recorded exactly when the read has a unique exact match
(and some neighbor exists at all, `indices.shape[0] != 0`). -/
def match_entry (whitelist : List String) (sc : String × List (ℕ × List Bool)) :
    Option (String × String) :=
  if sc.2.isEmpty then none
  else if (match_indices_of sc.2).length = 1 then
    some (sc.1, whitelist.getD ((match_indices_of sc.2).headD 0) "")
  else none

/-- One iteration of the step-1 loop over distinct reads: update
`whitelist_counts` (for every exact match `m`, add
`counts[whitelist[m]] / len(match_indices)`, truncated by the in-place `+=`
into the integer array) and append to `matches` when the exact match is
unique. -/
def step1_fold_step (sequences : List String) (whitelist : List String)
    (st : List ℤ × List (String × String)) (sc : String × List (ℕ × List Bool)) :
    List ℤ × List (String × String) :=
  if sc.2.isEmpty then st
  else
    let match_indices := match_indices_of sc.2
    let match_table' := match match_entry whitelist sc with
      | some e => st.2 ++ [e]
      | none => st.2
    let wcounts' := match_indices.foldl
      (fun wc m => wc.set m
        (Int.floor ((wc.getD m 0 : ℚ) +
          (sequences.count (whitelist.getD m "") : ℚ) / (match_indices.length : ℚ))))
      st.1
    (wcounts', match_table')

/-- Step 1 of `correct_sequences_to_whitelist`: per distinct read (sorted),
cache the whitelist neighbors within `d`; a distinct read whose set of
distance-`0` neighbors (`masks.sum(axis=1) == 0`) is a singleton is recorded
in `matches`; for every distance-`0` neighbor `m`, the count of the string
`whitelist[m]` among the reads, divided by the number of exact matches, is
added (with integer truncation) to `whitelist_counts[m]`.  Then every
occurrence of a matched read is corrected. -/
def correct_step1 (sequences : List String) (whitelist : List String) (d : ℕ) :
    Except String Step1Result :=
  match whitelist.mapM (fun bc => sequence_to_array bc none) with
  | Except.error e => Except.error e
  | Except.ok whitelist_arrays =>
    let uniq := sorted_unique sequences
    match uniq.mapM (fun seq =>
        match sequence_to_array seq none with
        | Except.error e => Except.error e
        | Except.ok arr => Except.ok (seq, mismatch_masks arr whitelist_arrays d)) with
    | Except.error e => Except.error e
    | Except.ok cache =>
      let st := cache.foldl (step1_fold_step sequences whitelist)
        (List.replicate whitelist.length 0, [])
      Except.ok
        { mismatch_cache := cache
          whitelist_counts := st.1
          match_table := st.2
          corrections := sequences.map (fun s => st.2.lookup s) }

/-- `correct_sequences_to_whitelist(sequences, qualities, whitelist, d)`.
Validation mirrors the source order: cardinality, per-read quality length,
whitelist duplicates, uniform read length, uniform whitelist length, and the
unconditional `len(sequences[0]) != len(whitelist[0])` comparison (an
`IndexError` when either list is empty).  Step 2 - the probabilistic pass -
computes floating-point log10 confidences (`np.log10`, `np.power`); it is
abstracted by the parameter `phase3`, which gives the optional correction for
a read index; the source only runs it on (and only writes to) indices whose
correction is still `None` after step 1. -/
def correct_sequences_to_whitelist (phase3 : ℕ → Option String)
    (sequences : List String) (qualities : List (List ℕ))
    (whitelist : List String) (d : ℕ) : Except String (List (Option String)) :=
  if sequences.length ≠ qualities.length then
    Except.error "number of sequences and qualities differ"
  else if (sequences.zip qualities).any (fun sq => sq.1.length ≠ sq.2.length) then
    Except.error "length of each sequence must match length of each quality string"
  else if ¬ whitelist.Nodup then
    Except.error "`whitelist` contains duplicates"
  else if sequences.any (fun s => s.length ≠ (sequences.headD "").length) then
    Except.error "all sequences in `sequences` must be of same length"
  else if whitelist.any (fun bc => bc.length ≠ (whitelist.headD "").length) then
    Except.error "all sequences in `whitelist` must be of same length"
  else
    match sequences, whitelist with
    | [], _ => Except.error "IndexError"
    | _, [] => Except.error "IndexError"
    | s0 :: _, w0 :: _ =>
      if s0.length ≠ w0.length then
        Except.error "all sequences in `sequences` and `whitelist` must be of same length"
      else
        match correct_step1 sequences whitelist d with
        | Except.error e => Except.error e
        | Except.ok r =>
          Except.ok ((r.corrections.enum).map (fun ic =>
            match ic.2 with
            | some s => some s
            | none => phase3 ic.1))

/-! ### Helper lemmas: filtered selections and `min` -/

theorem mem_of_keep_false {xs : List α} {flags : List Bool} {x : α}
    (h : x ∈ keep_false xs flags) : x ∈ xs := by
  unfold keep_false at h
  obtain ⟨⟨a, f⟩, hmem, hf⟩ := List.mem_filterMap.mp h
  rcases f with _ | _
  · exact (Option.some_inj.mp hf) ▸ (List.of_mem_zip hmem).1
  · simp at hf

theorem mem_of_keep_true {xs : List α} {flags : List Bool} {x : α}
    (h : x ∈ keep_true xs flags) : x ∈ xs := by
  unfold keep_true at h
  obtain ⟨⟨a, f⟩, hmem, hf⟩ := List.mem_filterMap.mp h
  rcases f with _ | _
  · simp at hf
  · exact (Option.some_inj.mp hf) ▸ (List.of_mem_zip hmem).1

theorem keep_false_length_le (xs : List α) (flags : List Bool) :
    (keep_false xs flags).length ≤ xs.length := by
  induction xs generalizing flags with
  | nil => simp [keep_false]
  | cons x xs ih =>
    rcases flags with _ | ⟨f, flags⟩
    · simp [keep_false]
    · rcases f with _ | _
      · simpa [keep_false, List.filterMap_cons] using
          Nat.succ_le_succ (ih flags)
      · simpa [keep_false, List.filterMap_cons] using
          Nat.le_succ_of_le (ih flags)

theorem keep_false_length_lt {xs : List α} {flags : List Bool}
    (hlen : xs.length = flags.length) (h : true ∈ flags) :
    (keep_false xs flags).length < xs.length := by
  induction xs generalizing flags with
  | nil =>
    rcases flags with _ | ⟨f, flags⟩
    · simp at h
    · simp at hlen
  | cons x xs ih =>
    rcases flags with _ | ⟨f, flags⟩
    · simp at h
    · rcases f with _ | _
      · have ht : true ∈ flags := by simpa using h
        simpa [keep_false, List.filterMap_cons] using
          Nat.succ_lt_succ (ih (by simpa using hlen) ht)
      · simpa [keep_false, List.filterMap_cons] using
          Nat.lt_succ_of_le (keep_false_length_le xs flags)

theorem keep_false_ne_nil {xs : List α} {flags : List Bool}
    (hlen : xs.length = flags.length) (h : false ∈ flags) :
    keep_false xs flags ≠ [] := by
  induction xs generalizing flags with
  | nil =>
    rcases flags with _ | ⟨f, flags⟩
    · simp at h
    · simp at hlen
  | cons x xs ih =>
    rcases flags with _ | ⟨f, flags⟩
    · simp at h
    · rcases f with _ | _
      · simp [keep_false, List.filterMap_cons]
      · have hf : false ∈ flags := by simpa using h
        simpa [keep_false, List.filterMap_cons] using
          ih (by simpa using hlen) hf

theorem keep_length_eq {xs : List α} {ys : List β} {flags : List Bool}
    (h1 : xs.length = flags.length) (h2 : ys.length = flags.length) :
    (keep_false xs flags).length = (keep_false ys flags).length := by
  induction flags generalizing xs ys with
  | nil =>
    rcases xs with _ | _ <;> rcases ys with _ | _ <;> simp_all [keep_false]
  | cons f flags ih =>
    rcases xs with _ | ⟨x, xs⟩
    · simp at h1
    · rcases ys with _ | ⟨y, ys⟩
      · simp at h2
      · rcases f with _ | _ <;>
          simpa [keep_false, List.filterMap_cons] using
            ih (by simpa using h1) (by simpa using h2)

theorem keep_false_cons (a : α) (f : Bool) (xs : List α) (flags : List Bool) :
    keep_false (a :: xs) (f :: flags) =
      if f then keep_false xs flags else a :: keep_false xs flags := by
  rcases f with _ | _ <;> simp [keep_false, List.filterMap_cons]

theorem keep_true_cons (a : α) (f : Bool) (xs : List α) (flags : List Bool) :
    keep_true (a :: xs) (f :: flags) =
      if f then a :: keep_true xs flags else keep_true xs flags := by
  rcases f with _ | _ <;> simp [keep_true, List.filterMap_cons]

theorem mem_keep_or {xs : List α} {flags : List Bool}
    (hlen : xs.length = flags.length) {x : α} (hx : x ∈ xs) :
    x ∈ keep_false xs flags ∨ x ∈ keep_true xs flags := by
  induction xs generalizing flags with
  | nil => simp at hx
  | cons a xs ih =>
    rcases flags with _ | ⟨f, flags⟩
    · simp at hlen
    · rw [keep_false_cons, keep_true_cons]
      rcases List.mem_cons.mp hx with h | h
      · subst h
        rcases f with _ | _
        · exact Or.inl (by simp)
        · exact Or.inr (by simp)
      · rcases ih (by simpa using hlen) h with hl | hr
        · exact Or.inl (by rcases f with _ | _ <;> simp [hl])
        · exact Or.inr (by rcases f with _ | _ <;> simp [hr])

theorem list_min_foldl_le (vs : List ℕ) (v : ℕ) :
    vs.foldl Nat.min v ≤ v ∧ ∀ x ∈ vs, vs.foldl Nat.min v ≤ x := by
  induction vs generalizing v with
  | nil => simp
  | cons w vs ih =>
    simp only [List.foldl_cons]
    have hl : Nat.min v w ≤ v := Nat.min_le_left v w
    have hr : Nat.min v w ≤ w := Nat.min_le_right v w
    refine ⟨le_trans (ih (Nat.min v w)).1 hl, ?_⟩
    intro x hx
    rcases List.mem_cons.mp hx with h | h
    · rw [h]
      exact le_trans (ih (Nat.min v w)).1 hr
    · exact (ih (Nat.min v w)).2 x h

theorem list_min_foldl_mem (vs : List ℕ) (v : ℕ) :
    vs.foldl Nat.min v = v ∨ vs.foldl Nat.min v ∈ vs := by
  induction vs generalizing v with
  | nil => simp
  | cons w vs ih =>
    simp only [List.foldl_cons]
    rcases ih (Nat.min v w) with h | h
    · have hm : Nat.min v w = v ∨ Nat.min v w = w := by
        rcases Nat.le_total v w with hvw | hvw
        · exact Or.inl (Nat.min_eq_left hvw)
        · exact Or.inr (Nat.min_eq_right hvw)
      rcases hm with hm | hm
      · exact Or.inl (by rw [h, hm])
      · exact Or.inr (by rw [h, hm]; exact List.mem_cons_self _ _)
    · exact Or.inr (List.mem_cons_of_mem _ h)

theorem list_min_mem {l : List ℕ} (h : l ≠ []) : list_min l ∈ l := by
  rcases l with _ | ⟨v, vs⟩
  · exact absurd rfl h
  · show vs.foldl Nat.min v ∈ v :: vs
    rcases list_min_foldl_mem vs v with h' | h'
    · rw [h']; exact List.mem_cons_self _ _
    · exact List.mem_cons_of_mem _ h'

theorem set_assigned_foldl_length (l : List (ℕ × Bool)) (acc : List ℤ) (label : ℤ) :
    (l.foldl (fun acc tf => if tf.2 then acc.set tf.1 label else acc) acc).length
      = acc.length := by
  induction l generalizing acc with
  | nil => rfl
  | cons tf l ih =>
    simp only [List.foldl_cons]
    rcases tf with ⟨t, f⟩
    rcases f with _ | _ <;> simp [ih]

theorem set_assigned_length (a : List ℤ) (t : List ℕ) (f : List Bool) (label : ℤ) :
    (set_assigned a t f label).length = a.length :=
  set_assigned_foldl_length (t.zip f) a label

theorem set_assigned_foldl_getD (l : List (ℕ × Bool)) (label : ℤ) :
    ∀ (acc : List ℤ) (i : ℕ), i < acc.length →
      (l.foldl (fun acc tf => if tf.2 then acc.set tf.1 label else acc) acc).getD i 0
        = if i ∈ l.filterMap (fun tf => if tf.2 then some tf.1 else none) then label
          else acc.getD i 0 := by
  induction l with
  | nil => intro acc i _; simp
  | cons tf l ih =>
    intro acc i hi
    rcases tf with ⟨t, f⟩
    rcases f with _ | _
    · simpa [List.filterMap_cons] using ih acc i hi
    · simp only [List.foldl_cons, List.filterMap_cons, eq_self_iff_true, ite_true]
      have hlen : (acc.set t label).length = acc.length := by simp
      rw [ih (acc.set t label) i (by simpa using hi)]
      by_cases hmem : i ∈ l.filterMap (fun tf => if tf.2 then some tf.1 else none)
      · simp [hmem]
      · by_cases hti : t = i
        · subst hti
          simp [hmem, List.getD_eq_getElem?_getD, List.getElem?_set_self hi]
        · simp only [hmem, if_false]
          have : i ∈ t :: l.filterMap (fun tf => if tf.2 then some tf.1 else none) ↔
              i = t ∨ i ∈ l.filterMap (fun tf => if tf.2 then some tf.1 else none) :=
            List.mem_cons
          simp only [this, hmem, or_false]
          have hne : ¬ (i = t) := fun hh => hti hh.symm
          simp [hne, List.getD_eq_getElem?_getD, List.getElem?_set_ne hti]

theorem set_assigned_getD (a : List ℤ) (t : List ℕ) (f : List Bool) (label : ℤ)
    (i : ℕ) (hi : i < a.length) :
    (set_assigned a t f label).getD i 0
      = if i ∈ keep_true t f then label else a.getD i 0 :=
  set_assigned_foldl_getD (t.zip f) label a i hi

theorem list_min_le {l : List ℕ} {x : ℕ} (h : x ∈ l) : list_min l ≤ x := by
  rcases l with _ | ⟨v, vs⟩
  · simp at h
  · show vs.foldl Nat.min v ≤ x
    rcases List.mem_cons.mp h with h' | h'
    · exact h' ▸ (list_min_foldl_le vs v).1
    · exact (list_min_foldl_le vs v).2 x h'

/-! ### Per-round properties of `call_consensus` and loop termination -/

theorem call_consensus_snd_length (pool : List (EncSeq × List ℕ)) (th : ℚ) :
    (call_consensus pool th).2.length = pool.length := by
  rcases pool with _ | ⟨p, _ | ⟨q, rest⟩⟩
  · rfl
  · rfl
  · simp only [call_consensus, List.length_map]

theorem mem_map_min_true (l : List ℕ) (th : ℚ) (hl : l ≠ []) :
    true ∈ l.map (fun (c : ℕ) => decide ((c : ℚ) ≤ max th (list_min l : ℚ))) := by
  have h1 : list_min l ∈ l := list_min_mem hl
  have h2 : decide ((list_min l : ℚ) ≤ max th (list_min l : ℚ)) = true := by
    simp only [decide_eq_true_eq]
    exact le_max_right th (list_min l : ℚ)
  exact List.mem_map.mpr ⟨list_min l, h1, h2⟩

theorem call_consensus_true_mem (pool : List (EncSeq × List ℕ)) (th : ℚ)
    (hp : pool ≠ []) : true ∈ (call_consensus pool th).2 := by
  rcases pool with _ | ⟨p, _ | ⟨q, rest⟩⟩
  · exact absurd rfl hp
  · simp [call_consensus]
  · show true ∈ (call_consensus (p :: q :: rest) th).2
    simp only [call_consensus]
    exact mem_map_min_true _ th (by simp)

theorem false_mem_of_not_all {l : List Bool} (h : ¬ l.all id = true) : false ∈ l := by
  by_contra hf
  apply h
  rw [List.all_eq_true]
  intro x hx
  rcases x with _ | _
  · exact absurd hx hf
  · rfl

theorem consensus_loop_isSome (th : ℚ) :
    ∀ (fuel : ℕ) (pool : List (EncSeq × List ℕ)) (transform : List ℕ)
      (cons : List String) (asg : List ℤ),
      pool ≠ [] → pool.length ≤ fuel →
      (consensus_loop th fuel pool transform cons asg).isSome := by
  intro fuel
  induction fuel with
  | zero =>
    intro pool _ _ _ hp hf
    rcases pool with _ | _
    · exact absurd rfl hp
    · simp at hf
  | succ fuel ih =>
    intro pool transform cons asg hp hf
    rw [consensus_loop]
    by_cases hall : (call_consensus pool th).2.all id = true
    · simp [hall]
    · simp only [hall, if_false]
      have hlen2 : (call_consensus pool th).2.length = pool.length :=
        call_consensus_snd_length pool th
      have htrue : true ∈ (call_consensus pool th).2 :=
        call_consensus_true_mem pool th hp
      have hfalse : false ∈ (call_consensus pool th).2 := false_mem_of_not_all hall
      have hlt : (keep_false pool (call_consensus pool th).2).length < pool.length :=
        keep_false_length_lt hlen2.symm htrue
      exact ih _ _ _ _ (keep_false_ne_nil hlen2.symm hfalse) (by omega)

theorem false_flag_of_mem_keep_false {xs : List α} {flags : List Bool} {x : α}
    (h : x ∈ keep_false xs flags) : false ∈ flags := by
  unfold keep_false at h
  obtain ⟨⟨a, f⟩, hmem, hf⟩ := List.mem_filterMap.mp h
  rcases f with _ | _
  · exact (List.of_mem_zip hmem).2
  · simp at hf

/-- Invariant of the consensus loop: every original index is either still in
the pool (via `transform`) or carries a label that is a valid index into the
accumulated consensus list.  On exit every index carries a valid label. -/
theorem consensus_loop_invariant (th : ℚ) (N : ℕ) :
    ∀ (fuel : ℕ) (pool : List (EncSeq × List ℕ)) (transform : List ℕ)
      (cons : List String) (asg : List ℤ) (out : List String × List ℤ),
      transform.length = pool.length →
      (∀ t ∈ transform, t < N) →
      asg.length = N →
      (∀ i, i < N → i ∈ transform ∨
        (0 ≤ asg.getD i 0 ∧ asg.getD i 0 < (cons.length : ℤ))) →
      consensus_loop th fuel pool transform cons asg = some out →
      out.2.length = N ∧
      ∀ i, i < N → 0 ≤ out.2.getD i 0 ∧ out.2.getD i 0 < (out.1.length : ℤ) := by
  intro fuel
  induction fuel with
  | zero =>
    intro pool transform cons asg out _ _ _ _ hout
    simp [consensus_loop] at hout
  | succ fuel ih =>
    intro pool transform cons asg out hlen htb hasg hinv hout
    simp only [consensus_loop] at hout
    have hflag_len : (call_consensus pool th).2.length = pool.length :=
      call_consensus_snd_length pool th
    have htf : transform.length = (call_consensus pool th).2.length := by omega
    set r := call_consensus pool th with hr
    set label := cons.indexOf r.1 with hlabel
    set cons' := if r.1 ∈ cons then cons else cons ++ [r.1] with hcons'
    set asg' := set_assigned asg transform r.2 (label : ℤ) with hasg'
    have hlab_lt : label < cons'.length := by
      by_cases hm : r.1 ∈ cons
      · rw [hcons']
        simpa [hm] using List.indexOf_lt_length.mpr hm
      · rw [hcons', hlabel]
        simp [hm, List.indexOf_eq_length.mpr hm]
    have hcons_le : cons.length ≤ cons'.length := by
      by_cases hm : r.1 ∈ cons <;> simp [hcons', hm]
    have hasg'_len : asg'.length = N := by
      rw [hasg', set_assigned_length, hasg]
    have hasg'_getD : ∀ i, i < N →
        asg'.getD i 0 = if i ∈ keep_true transform r.2 then (label : ℤ)
          else asg.getD i 0 := by
      intro i hi
      rw [hasg']
      exact set_assigned_getD asg transform r.2 _ i (by omega)
    by_cases hall : r.2.all id = true
    · simp only [hall, if_true, Option.some.injEq] at hout
      subst hout
      refine ⟨hasg'_len, ?_⟩
      intro i hi
      rw [hasg'_getD i hi]
      by_cases hkt : i ∈ keep_true transform r.2
      · simp only [hkt, if_true]
        exact ⟨Int.ofNat_nonneg label, by exact_mod_cast hlab_lt⟩
      · simp only [hkt, if_false]
        rcases hinv i hi with hmem | hbound
        · rcases mem_keep_or htf hmem with hkf | hkt'
          · have hfl : false ∈ r.2 := false_flag_of_mem_keep_false hkf
            have := List.all_eq_true.mp hall false hfl
            simp at this
          · exact absurd hkt' hkt
        · exact ⟨hbound.1, lt_of_lt_of_le hbound.2 (by exact_mod_cast hcons_le)⟩
    · simp only [hall, if_false] at hout
      apply ih (keep_false pool r.2) (keep_false transform r.2) cons' asg' out _ _
        hasg'_len _ hout
      · exact keep_length_eq htf (by omega)
      · intro t ht
        exact htb t (mem_of_keep_false ht)
      · intro i hi
        by_cases hkf : i ∈ keep_false transform r.2
        · exact Or.inl hkf
        · refine Or.inr ?_
          rw [hasg'_getD i hi]
          by_cases hkt : i ∈ keep_true transform r.2
          · simp only [hkt, if_true]
            exact ⟨Int.ofNat_nonneg label, by exact_mod_cast hlab_lt⟩
          · simp only [hkt, if_false]
            rcases hinv i hi with hmem | hbound
            · rcases mem_keep_or htf hmem with h' | h'
              · exact absurd h' hkf
              · exact absurd h' hkt
            · exact ⟨hbound.1, lt_of_lt_of_le hbound.2 (by exact_mod_cast hcons_le)⟩

/-- Summing value counts over the label range recovers the list length when
every entry lies in the range. -/
theorem sum_count_range {l : List ℤ} {K : ℕ}
    (h : ∀ a ∈ l, 0 ≤ a ∧ a < (K : ℤ)) :
    (Finset.range K).sum (fun c => l.count (c : ℤ)) = l.length := by
  induction l with
  | nil => simp
  | cons a l ih =>
    have ha := h a (List.mem_cons_self a l)
    have hrest : ∀ x ∈ l, 0 ≤ x ∧ x < (K : ℤ) :=
      fun x hx => h x (List.mem_cons_of_mem a hx)
    have hcount : ∀ c : ℕ, (a :: l).count (c : ℤ)
        = l.count (c : ℤ) + if c = a.toNat then 1 else 0 := by
      intro c
      have h1 := ha.1
      have hiff : ((c : ℤ) = a) ↔ (c = a.toNat) := by omega
      have hiff2 : (a = (c : ℤ)) ↔ (c = a.toNat) := by omega
      simp [List.count_cons, hiff, hiff2]
    calc (Finset.range K).sum (fun c => (a :: l).count (c : ℤ))
        = (Finset.range K).sum
            (fun c => l.count (c : ℤ) + if c = a.toNat then 1 else 0) := by
          exact Finset.sum_congr rfl (fun c _ => hcount c)
      _ = (Finset.range K).sum (fun c => l.count (c : ℤ))
            + (Finset.range K).sum (fun c => if c = a.toNat then 1 else 0) :=
          Finset.sum_add_distrib
      _ = l.length + 1 := by
          rw [ih hrest, Finset.sum_ite_eq' (Finset.range K) a.toNat (fun _ => 1)]
          have h2 := ha.1
          have h3 := ha.2
          have : a.toNat ∈ Finset.range K := Finset.mem_range.mpr (by omega)
          simp [this]
      _ = (a :: l).length := by simp

theorem mapM_ok_of_forall {β : Type} (l : List α) (f : α → Except String β)
    (h : ∀ x ∈ l, ∃ y, f x = Except.ok y) :
    ∃ ys, l.mapM f = Except.ok ys ∧ ys.length = l.length := by
  induction l with
  | nil => exact ⟨[], rfl, rfl⟩
  | cons x xs ih =>
    obtain ⟨y, hy⟩ := h x (List.mem_cons_self x xs)
    obtain ⟨ys, hys, hlen⟩ := ih (fun a ha => h a (List.mem_cons_of_mem x ha))
    refine ⟨y :: ys, ?_, by simp [hlen]⟩
    rw [List.mapM_cons, hy, hys]
    rfl

theorem foldl_max_start_le (l : List ℕ) (a : ℕ) : a ≤ l.foldl Nat.max a := by
  induction l generalizing a with
  | nil => simp
  | cons v vs ih =>
    simp only [List.foldl_cons]
    exact le_trans (Nat.le_max_left a v) (ih (Nat.max a v))

theorem foldl_max_le (l : List ℕ) : ∀ x ∈ l, ∀ a : ℕ, x ≤ l.foldl Nat.max a := by
  induction l with
  | nil => intro x hx; simp at hx
  | cons v vs ih =>
    intro x hx a
    simp only [List.foldl_cons]
    rcases List.mem_cons.mp hx with h | h
    · have hx2 : x ≤ Nat.max a v := by
        rw [h]
        exact Nat.le_max_right a v
      exact le_trans hx2 (foldl_max_start_le vs (Nat.max a v))
    · exact ih x h (Nat.max a v)

/-- Validity of a read for the encoder: every symbol upper-cases into the
known alphabet. -/
def valid_seq (s : String) : Prop := ∀ c ∈ s.toList, c.toUpper ∈ NUCLEOTIDES

instance (s : String) : Decidable (valid_seq s) := by
  unfold valid_seq
  infer_instance

theorem sequence_to_array_ok {s : String} {l : ℕ}
    (hv : valid_seq s) (hl : s.length ≤ l) :
    ∃ a, sequence_to_array s (some l) = Except.ok a := by
  have h1 : ((s.toList.map Char.toUpper).any (fun c => !(NUCLEOTIDES.contains c))) = false := by
    rw [List.any_eq_false]
    intro c hc
    obtain ⟨c0, hc0, rfl⟩ := List.mem_map.mp hc
    simpa using hv c0 hc0
  have hlen : (s.toList.map Char.toUpper).length = s.length := by
    rw [List.length_map]
    rfl
  simp only [sequence_to_array, h1, Bool.false_eq_true, if_false]
  by_cases h0 : l = 0
  · subst h0
    rw [if_neg (by simp)]
    exact ⟨_, rfl⟩
  · rw [if_neg (by simp only [if_neg h0]; omega)]
    exact ⟨_, rfl⟩

theorem qualities_to_array_ok {q : List ℕ} {l : ℕ} (hl : q.length ≤ l) :
    ∃ a, qualities_to_array q (some l) = Except.ok a := by
  simp only [qualities_to_array]
  by_cases h0 : l = 0
  · subst h0
    rw [if_neg (by simp), if_neg (by simp)]
    exact ⟨_, rfl⟩
  · rw [if_neg (by
      intro hcond
      rcases hcond with ⟨_, hlt⟩
      simp only [Option.getD_some] at hlt
      omega)]
    rw [if_pos (by simp [h0])]
    exact ⟨_, rfl⟩

/-! ### Claim theorems: consensus caller -/

/-- **C3**: the consensus-calling loop terminates after at most `N` rounds
for a non-empty pool of `N` members (at the top level `N` is the number of
sequences): in every round the effective threshold
`max(thresh, min(probs))` admits the minimum-cost pool member, so at least
one assignment flag is `true`, that member is removed, and a fuel of one
round per pool member is never exhausted. -/
theorem C3_consensus_loop_terminates (th : ℚ) (pool : List (EncSeq × List ℕ))
    (transform : List ℕ) (cons : List String) (asg : List ℤ) (fuel : ℕ)
    (hp : pool ≠ []) (hf : pool.length ≤ fuel) :
    true ∈ (call_consensus pool th).2 ∧
    (consensus_loop th fuel pool transform cons asg).isSome = true :=
  ⟨call_consensus_true_mem pool th hp,
    consensus_loop_isSome th fuel pool transform cons asg hp hf⟩

/-- Witness for C3 at a concrete one-read pool. -/
theorem C3_witness :
    true ∈ (call_consensus [(mask_array "A", [5])] (3/2)).2 ∧
    (consensus_loop (3/2) 1 [(mask_array "A", [5])] [0] [] [-1]).isSome = true :=
  C3_consensus_loop_terminates (3/2) [(mask_array "A", [5])] [0] [] [-1] 1
    (by simp) (by simp)

/-- **C2**: on a valid input of `N` sequences with matching qualities, the
consensus caller succeeds; the assignment vector has length `N`, every entry
is a valid cluster id (`0 ≤ id < number of consensuses` - in particular the
`-1` initialisation has been overwritten everywhere), and the cluster sizes
sum to `N`. -/
theorem C2_assignment_complete (sequences : List String) (qualities : List (List ℕ))
    (q_threshold : ℕ) (proportion : ℚ)
    (hcard : sequences.length = qualities.length)
    (hlen : ∀ p ∈ sequences.zip qualities, p.1.length = p.2.length)
    (hne : sequences ≠ [])
    (hvalid : ∀ s ∈ sequences, valid_seq s) :
    ∃ cons asg,
      call_consensus_with_qualities sequences qualities q_threshold proportion
        = Except.ok (cons, asg) ∧
      asg.length = sequences.length ∧
      (∀ a ∈ asg, 0 ≤ a ∧ a < (cons.length : ℤ)) ∧
      (Finset.range cons.length).sum (fun c => asg.count (c : ℤ))
        = sequences.length := by
  have hslen : ∀ s ∈ sequences, s.length ≤ (sequences.map String.length).foldl Nat.max 0 := by
    intro s hs
    exact foldl_max_le _ s.length (List.mem_map_of_mem String.length hs) 0
  have hqlen : ∀ q ∈ qualities, q.length ≤ (sequences.map String.length).foldl Nat.max 0 := by
    intro q hq
    obtain ⟨i, hi, hqi⟩ := List.mem_iff_getElem.mp hq
    have his : i < sequences.length := by omega
    have hizip : i < (sequences.zip qualities).length := by
      rw [List.length_zip]
      omega
    have hmem : (sequences.get ⟨i, his⟩, qualities.get ⟨i, hi⟩) ∈ sequences.zip qualities := by
      have hz : (sequences.zip qualities).get ⟨i, hizip⟩
          = (sequences.get ⟨i, his⟩, qualities.get ⟨i, hi⟩) := by
        simp only [List.get_eq_getElem]
        exact List.getElem_zip
      rw [← hz]
      exact List.get_mem _ _ _
    have heq := hlen _ hmem
    simp only at heq
    rw [← hqi]
    have hget : qualities.get ⟨i, hi⟩ = qualities[i] := List.get_eq_getElem _ _
    rw [← hget, ← heq]
    exact hslen _ (List.get_mem _ _ _)
  obtain ⟨arrs, harrs, harrs_len⟩ := mapM_ok_of_forall sequences
    (fun s => sequence_to_array s (some ((sequences.map String.length).foldl Nat.max 0)))
    (fun s hs => sequence_to_array_ok (hvalid s hs) (hslen s hs))
  obtain ⟨qarrs, hqarrs, hqarrs_len⟩ := mapM_ok_of_forall qualities
    (fun q => qualities_to_array q (some ((sequences.map String.length).foldl Nat.max 0)))
    (fun q hq => qualities_to_array_ok (hqlen q hq))
  have hpool_len : (arrs.zip qarrs).length = sequences.length := by
    rw [List.length_zip]
    omega
  have hpool_ne : arrs.zip qarrs ≠ [] := by
    have hpos : 0 < sequences.length := List.length_pos.mpr hne
    intro hcontra
    rw [hcontra] at hpool_len
    simp at hpool_len
    omega
  have hsome := consensus_loop_isSome
    ((q_threshold : ℚ) * ((((sequences.map String.length).foldl Nat.max 0 : ℕ) : ℚ) * proportion))
    sequences.length (arrs.zip qarrs) (List.range sequences.length) []
    (List.replicate sequences.length (-1)) hpool_ne (le_of_eq hpool_len)
  obtain ⟨out, hout⟩ := Option.isSome_iff_exists.mp hsome
  have hinv := consensus_loop_invariant
    ((q_threshold : ℚ) * ((((sequences.map String.length).foldl Nat.max 0 : ℕ) : ℚ) * proportion))
    sequences.length sequences.length (arrs.zip qarrs) (List.range sequences.length) []
    (List.replicate sequences.length (-1)) out
    (by simp [hpool_len]) (fun t ht => List.mem_range.mp ht) (by simp)
    (fun i hi => Or.inl (List.mem_range.mpr hi)) hout
  have hmem_bound : ∀ a ∈ out.2, 0 ≤ a ∧ a < (out.1.length : ℤ) := by
    intro a ha
    obtain ⟨i, hi, hai⟩ := List.mem_iff_getElem.mp ha
    have hgd : out.2.getD i 0 = a := by
      rw [List.getD_eq_getElem?_getD, List.getElem?_eq_getElem hi, hai]
      rfl
    have := hinv.2 i (by omega)
    rw [hgd] at this
    exact this
  refine ⟨out.1, out.2, ?_, hinv.1, hmem_bound, ?_⟩
  · have hc1 : ¬ (sequences.length ≠ qualities.length) := by omega
    have hc2 : ¬ (((sequences.zip qualities).any
        (fun sq => decide (sq.1.length ≠ sq.2.length))) = true) := by
      rw [List.any_eq_true]
      intro ⟨p, hp, hpd⟩
      exact (decide_eq_true_eq.mp hpd) (hlen p hp)
    have hc3 : ¬ (sequences.isEmpty = true) := by
      simpa [List.isEmpty_iff] using hne
    unfold call_consensus_with_qualities
    rw [if_neg hc1, if_neg hc2, if_neg hc3]
    simp only [harrs, hqarrs, hout]
  · rw [sum_count_range hmem_bound, hinv.1]

/-- Witness for C2 at a concrete two-read input. -/
theorem C2_witness :
    ∃ cons asg,
      call_consensus_with_qualities ["AC", "GT"] [[10, 20], [30, 40]] 30 (1/20)
        = Except.ok (cons, asg) ∧
      asg.length = (["AC", "GT"] : List String).length ∧
      (∀ a ∈ asg, 0 ≤ a ∧ a < (cons.length : ℤ)) ∧
      (Finset.range cons.length).sum (fun c => asg.count (c : ℤ))
        = (["AC", "GT"] : List String).length :=
  C2_assignment_complete ["AC", "GT"] [[10, 20], [30, 40]] 30 (1/20)
    (by decide) (by decide) (by decide) (by decide)

/-- **C10**: on the empty input the cardinality checks pass (0 sequences,
0 qualities, nothing to zip) and the call then evaluates
`max(len(s) for s in sequences)`, which raises `ValueError` on an empty
collection; no `([], [])` result is returned. -/
theorem C10_empty_input_raises (q_threshold : ℕ) (proportion : ℚ) :
    call_consensus_with_qualities [] [] q_threshold proportion
      = Except.error "max() arg is an empty sequence" := rfl

/-- **C4 counterexample**: the single-element input `"N"` is *not* returned
unchanged: every strict base is consistent with `N`, `argmax` takes the first
(`A`), and the sole consensus is `"A"`.  The assignment vector is `[0]`. -/
theorem C4_counterexample :
    call_consensus_with_qualities ["N"] [[7]] 30 (1/20) = Except.ok (["A"], [0])
      ∧ "A" ≠ "N" :=
  ⟨rfl, by decide⟩

theorem any_invalid_false {s : String} (hv : valid_seq s) :
    ((s.toList.map Char.toUpper).any (fun c => !(NUCLEOTIDES.contains c))) = false := by
  rw [List.any_eq_false]
  intro c hc
  obtain ⟨c0, hc0, rfl⟩ := List.mem_map.mp hc
  simpa using hv c0 hc0

/-- Per accepted symbol: the source's `argmax` over the boolean mask column
picks exactly the first consistent strict base, and that call is itself a
strict base. -/
theorem consistent_call_facts :
    ∀ u ∈ NUCLEOTIDES,
      NUCLEOTIDES_STRICT.getD (argmax_idx (bools_to_nats (nucleotide_mask u))) 'A'
        = first_base_of_mask (nucleotide_mask u)
      ∧ first_base_of_mask (nucleotide_mask u) ∈ NUCLEOTIDES_STRICT := by
  decide

/-- On an uppercase strict base the most-likely call is the base itself. -/
theorem strict_call_fixed :
    ∀ c ∈ NUCLEOTIDES_STRICT, first_consistent_base c = c := by
  decide

/-- Encoding a sequence with `l` equal to its own length adds no padding. -/
theorem sequence_to_array_exact {s : String} (hv : valid_seq s) :
    sequence_to_array s (some s.length) = Except.ok (mask_array s) := by
  have h1 := any_invalid_false hv
  have hlen : (s.toList.map Char.toUpper).length = s.length := by
    rw [List.length_map]
    rfl
  simp only [sequence_to_array, h1, Bool.false_eq_true, if_false]
  by_cases h0 : s.length = 0
  · rw [if_pos h0, if_neg (by omega), hlen]
    simp
  · rw [if_neg h0, if_neg (by omega), hlen]
    simp

/-- Quality conversion with `l` equal to the input length adds no padding. -/
theorem qualities_to_array_exact {q : List ℕ} {l : ℕ} (h : q.length = l) :
    qualities_to_array q (some l) = Except.ok (q.map (· % 256)) := by
  simp only [qualities_to_array]
  by_cases h0 : l = 0
  · subst h0
    rw [if_neg (by simp), if_neg (by simp)]
  · rw [if_neg (by
      intro hcond
      rcases hcond with ⟨_, hlt⟩
      simp only [Option.getD_some] at hlt
      omega)]
    rw [if_pos (by simp [h0])]
    have hrep : l - (q.map (· % 256)).length = 0 := by
      rw [List.length_map]
      omega
    rw [show (some l).getD 0 = l from rfl, hrep]
    simp

/-- On a valid read the source's single-read consensus equals the
per-position most-likely call of the amended claim. -/
theorem most_likely_call_eq {s : String} (hv : valid_seq s) :
    most_likely_sequence ((mask_array s).map bools_to_nats) = most_likely_call s := by
  unfold most_likely_sequence mask_array most_likely_call
  rw [List.map_map, List.map_map, List.map_map]
  congr 1
  apply List.map_congr_left
  intro c hc
  have h := (consistent_call_facts c.toUpper (hv c hc)).1
  simp only [Function.comp_apply]
  exact h

theorem string_mk_eq_iff (l : List Char) (s : String) :
    String.mk l = s ↔ l = s.toList := by
  constructor
  · intro h
    rw [← h]
    rfl
  · intro h
    rw [h]
    rfl

theorem list_map_eq_self_iff (f : Char → Char) (l : List Char) :
    l.map f = l ↔ ∀ c ∈ l, f c = c := by
  induction l with
  | nil => simp
  | cons a l ih => simp [ih]

/-- On a valid read, the most-likely call is the read itself exactly when the
read consists of uppercase strict bases. -/
theorem most_likely_call_eq_self {s : String} (hv : valid_seq s) :
    most_likely_call s = s ↔ ∀ c ∈ s.toList, c ∈ NUCLEOTIDES_STRICT := by
  unfold most_likely_call
  rw [string_mk_eq_iff, list_map_eq_self_iff]
  constructor
  · intro h c hc
    by_contra hcs
    have hmem := (consistent_call_facts c.toUpper (hv c hc)).2
    have hfix := h c hc
    rw [← hfix] at hcs
    exact hcs hmem
  · intro h c hc
    exact strict_call_fixed c (h c hc)

/-- **C4 (amended)**: on every valid single-element input the sole consensus
is the per-position most-likely call — the first strict base in `A,C,G,T`
order consistent with each upper-cased symbol — with assignment vector `[0]`;
the consensus equals the input exactly when the input consists of uppercase
strict bases (cf. `C4_counterexample`). -/
theorem C4_amended_single_input (s : String) (q : List ℕ)
    (q_threshold : ℕ) (proportion : ℚ)
    (hq : q.length = s.length)
    (hv : valid_seq s) :
    call_consensus_with_qualities [s] [q] q_threshold proportion
      = Except.ok ([most_likely_call s], [0])
    ∧ (most_likely_call s = s ↔ ∀ c ∈ s.toList, c ∈ NUCLEOTIDES_STRICT) := by
  refine ⟨?_, most_likely_call_eq_self hv⟩
  have hl : (([s].map String.length).foldl Nat.max 0) = s.length := by simp
  have hseq : [s].mapM (fun t => sequence_to_array t (some s.length))
      = Except.ok [mask_array s] := by
    rw [List.mapM_cons, sequence_to_array_exact hv]
    rfl
  have hqual : [q].mapM (fun t => qualities_to_array t (some s.length))
      = Except.ok [q.map (· % 256)] := by
    rw [List.mapM_cons, qualities_to_array_exact hq]
    rfl
  have hcc : call_consensus [(mask_array s, q.map (· % 256))]
      ((q_threshold : ℚ) * ((s.length : ℚ) * proportion))
      = (most_likely_call s, [true]) := by
    simp only [call_consensus]
    rw [most_likely_call_eq hv]
  have hloop : consensus_loop ((q_threshold : ℚ) * ((s.length : ℚ) * proportion)) 1
      [(mask_array s, q.map (· % 256))] (List.range 1) [] (List.replicate 1 (-1))
      = some ([most_likely_call s], [0]) := by
    simp only [consensus_loop, hcc]
    simp [set_assigned, List.range_succ]
  unfold call_consensus_with_qualities
  rw [if_neg (by simp), if_neg (by simp [hq]), if_neg (by simp)]
  simp only [hl, hseq, hqual, List.zip_cons_cons, List.zip_nil_right,
    List.length_cons, List.length_nil, List.zip_nil_left]
  simp only [show (0 : ℕ) + 1 = 1 from rfl, hloop]

/-- Witness for the amended C4 at a concrete ambiguous read (`"nR"`: a
lowercase `n` column and an `R` column, both called as `A`, so the consensus
`"AA"` differs from the input as the only-if direction requires). -/
theorem C4_witness :
    (call_consensus_with_qualities ["nR"] [[3, 7]] 30 (1/20)
        = Except.ok ([most_likely_call "nR"], [0])
      ∧ (most_likely_call "nR" = "nR" ↔ ∀ c ∈ "nR".toList, c ∈ NUCLEOTIDES_STRICT))
    ∧ most_likely_call "nR" = "AA" :=
  ⟨C4_amended_single_input "nR" [3, 7] 30 (1/20) (by decide) (by decide), by decide⟩

/-! ### Claim theorems: quality encoding (C6) -/

/-- **C6 counterexample**: `l = 0` is smaller than the quality length `1`,
yet the conversion does not fail - Python's `if l and ...` treats `0` as
absent - and the array is returned without resizing. -/
theorem C6_counterexample :
    (0 : ℕ) < ([5] : List ℕ).length ∧
      qualities_to_array [5] (some 0) = Except.ok [5] :=
  ⟨by decide, rfl⟩

/-- **C6 (amended)**: for a *positive* `expected_len` the conversion fails
exactly when `expected_len` is smaller than the current length, and otherwise
returns the zero-right-padded array of length `expected_len`; `expected_len =
0` is treated as not given (see `C6_counterexample`).  Quality values are
within the `uint8` domain. -/
theorem C6_amended_quality_resize (qs : List ℕ) (v : ℕ)
    (hq : ∀ x ∈ qs, x < 256) (hv : 0 < v) :
    (v < qs.length → qualities_to_array qs (some v)
        = Except.error "`l` can not be smaller than length of `qualities`") ∧
    (qs.length ≤ v → qualities_to_array qs (some v)
        = Except.ok (qs ++ List.replicate (v - qs.length) 0)) := by
  have hmap : qs.map (· % 256) = qs := by
    have : qs.map (· % 256) = qs.map id := by
      apply List.map_congr_left
      intro x hx
      exact Nat.mod_eq_of_lt (hq x hx)
    rw [this, List.map_id]
  constructor
  · intro hlt
    simp only [qualities_to_array]
    rw [if_pos ⟨by simp [Nat.pos_iff_ne_zero.mp hv], by simpa using hlt⟩]
  · intro hle
    simp only [qualities_to_array]
    rw [if_neg (by
      intro hcond
      rcases hcond with ⟨_, hlt⟩
      simp only [Option.getD_some] at hlt
      omega)]
    rw [if_pos (by simp [Nat.pos_iff_ne_zero.mp hv])]
    rw [show (some v).getD 0 = v from rfl, hmap]

/-- Witness for the amended C6: padding at `expected_len = 3` and failure at
`expected_len = 1`, on the quality array `[7, 8]`. -/
theorem C6_witness :
    qualities_to_array [7, 8] (some 3) = Except.ok ([7, 8] ++ List.replicate 1 0) ∧
    qualities_to_array [7, 8] (some 1)
      = Except.error "`l` can not be smaller than length of `qualities`" :=
  ⟨(C6_amended_quality_resize [7, 8] 3 (by decide) (by decide)).2 (by decide),
   (C6_amended_quality_resize [7, 8] 1 (by decide) (by decide)).1 (by decide)⟩

/-! ### Claim theorems: encoder column invariant (C7) -/

theorem mask_count_facts :
    ∀ c ∈ NUCLEOTIDES, 1 ≤ mask_sum (nucleotide_mask c) ∧
      (c ∈ NUCLEOTIDES_STRICT → mask_sum (nucleotide_mask c) = 1) := by
  decide

/-- A successful unpadded encoding is exactly the mask array, and certifies
validity of the input. -/
theorem sequence_to_array_none_eq {s : String} {arr : EncSeq}
    (h : sequence_to_array s none = Except.ok arr) :
    arr = mask_array s ∧ valid_seq s := by
  simp only [sequence_to_array] at h
  by_cases hc : ((s.toList.map Char.toUpper).any (fun c => !(NUCLEOTIDES.contains c))) = true
  · rw [if_pos hc] at h
    exact absurd h (by simp)
  · rw [if_neg hc] at h
    rw [if_neg (lt_irrefl _)] at h
    refine ⟨?_, ?_⟩
    · have harr := Except.ok.inj h
      rw [← harr]
      simp
    · intro c0 hc0
      have hmem : c0.toUpper ∈ s.toList.map Char.toUpper :=
        List.mem_map_of_mem Char.toUpper hc0
      have hfalse : ((s.toList.map Char.toUpper).any
          (fun c => !(NUCLEOTIDES.contains c))) = false := by
        simpa using hc
      have := List.any_eq_false.mp hfalse _ hmem
      simpa using this

/-- **C7**: a successfully encoded sequence (no padding requested) yields one
column per symbol; every column has at least one `true` entry, and a column
arising from a strict base has exactly one. -/
theorem C7_column_invariant (s : String) (arr : EncSeq)
    (h : sequence_to_array s none = Except.ok arr) :
    arr.length = s.length ∧
    ∀ i, i < arr.length →
      1 ≤ mask_sum (arr.getD i []) ∧
      (((s.toList.map Char.toUpper).getD i 'A') ∈ NUCLEOTIDES_STRICT →
        mask_sum (arr.getD i []) = 1) := by
  obtain ⟨harr, hv⟩ := sequence_to_array_none_eq h
  subst harr
  have hlen : (mask_array s).length = s.length := by
    unfold mask_array
    rw [List.length_map, List.length_map]
    rfl
  refine ⟨hlen, ?_⟩
  intro i hi
  have hi' : i < (s.toList.map Char.toUpper).length := by
    rw [List.length_map]
    have : s.toList.length = s.length := rfl
    omega
  have hcol : (mask_array s).getD i []
      = nucleotide_mask ((s.toList.map Char.toUpper).getD i 'A') := by
    unfold mask_array
    rw [List.getD_eq_getElem?_getD, List.getD_eq_getElem?_getD,
      List.getElem?_eq_getElem (by simpa using hi'),
      List.getElem?_eq_getElem hi']
    simp [List.getElem_map]
  have hmem : ((s.toList.map Char.toUpper).getD i 'A') ∈ NUCLEOTIDES := by
    have hup : (s.toList.map Char.toUpper).getD i 'A'
        = (s.toList.getD i 'A').toUpper := by
      rw [List.getD_eq_getElem?_getD, List.getD_eq_getElem?_getD,
        List.getElem?_eq_getElem hi',
        List.getElem?_eq_getElem (by simpa using hi')]
      simp [List.getElem_map]
    have hid : i < s.toList.length := by simpa using hi'
    have hgd : s.toList.getD i 'A' = s.toList.get ⟨i, hid⟩ := by
      rw [List.getD_eq_getElem?_getD, List.getElem?_eq_getElem hid, List.get_eq_getElem]
      rfl
    rw [hup, hgd]
    exact hv _ (List.get_mem _ _ _)
  rw [hcol]
  exact ⟨(mask_count_facts _ hmem).1, fun hstrict => (mask_count_facts _ hmem).2 hstrict⟩

/-- Witness for C7 on the mixed strict/ambiguous read `"AN"`. -/
theorem C7_witness :
    ([[true, false, false, false], [true, true, true, true]] : EncSeq).length
        = ("AN" : String).length ∧
    1 ≤ mask_sum (([[true, false, false, false], [true, true, true, true]] : EncSeq).getD 0 []) ∧
    mask_sum (([[true, false, false, false], [true, true, true, true]] : EncSeq).getD 0 []) = 1 := by
  have h := C7_column_invariant "AN" [[true, false, false, false], [true, true, true, true]] rfl
  exact ⟨h.1, (h.2 0 (by decide)).1, (h.2 0 (by decide)).2 (by decide)⟩

/-! ### Claim theorems: hamming distances (C8) -/

theorem zip_all_not_and_comm (x y : List Bool) :
    (x.zip y).all (fun bb => !(bb.1 && bb.2))
      = (y.zip x).all (fun bb => !(bb.1 && bb.2)) := by
  induction x generalizing y with
  | nil => cases y <;> rfl
  | cons a xs ih =>
    cases y with
    | nil => rfl
    | cons b ys =>
      simp only [List.zip_cons_cons, List.all_cons, Bool.and_comm]
      rw [ih ys]

theorem mismatch_mask_comm (a b : EncSeq) : mismatch_mask a b = mismatch_mask b a := by
  unfold mismatch_mask
  induction a generalizing b with
  | nil => cases b <;> rfl
  | cons x xs ih =>
    cases b with
    | nil => rfl
    | cons y ys =>
      simp only [List.zip_cons_cons, List.map_cons]
      rw [ih ys, zip_all_not_and_comm]

theorem hamming_distance_arr_comm (a b : EncSeq) :
    hamming_distance_arr a b = hamming_distance_arr b a := by
  unfold hamming_distance_arr
  rw [mismatch_mask_comm]

theorem zip_self_eq_map (l : List α) : l.zip l = l.map (fun x => (x, x)) := by
  induction l with
  | nil => rfl
  | cons x xs ih => simp [List.zip_cons_cons, ih]

theorem mask_self_no_mismatch :
    ∀ c ∈ NUCLEOTIDES,
      (((nucleotide_mask c).zip (nucleotide_mask c)).all
        (fun bb => !(bb.1 && bb.2))) = false := by
  decide

theorem hamming_self_zero {s : String} (hv : valid_seq s) :
    hamming_distance_arr (mask_array s) (mask_array s) = 0 := by
  unfold hamming_distance_arr mask_sum mismatch_mask
  rw [List.count_eq_zero]
  intro hmem
  obtain ⟨⟨x, y⟩, hxy, hf⟩ := List.mem_map.mp hmem
  rw [zip_self_eq_map] at hxy
  obtain ⟨col, hcol, hpair⟩ := List.mem_map.mp hxy
  obtain ⟨c, hc, rfl⟩ := List.mem_map.mp hcol
  obtain ⟨c0, hc0, rfl⟩ := List.mem_map.mp hc
  injection hpair with h1 h2
  subst h1
  subst h2
  rw [mask_self_no_mismatch _ (hv c0 hc0)] at hf
  exact Bool.false_ne_true hf

/-- A valid sequence encodes without padding when `l` is `None`. -/
theorem sequence_to_array_none_of_valid {s : String} (hv : valid_seq s) :
    sequence_to_array s none = Except.ok (mask_array s) := by
  simp only [sequence_to_array, any_invalid_false hv, Bool.false_eq_true, if_false]
  rw [if_neg (lt_irrefl _)]
  simp

/-- On valid equal-length strings `hamming_distance` succeeds with the
array-level distance. -/
theorem hamming_distance_eq {s1 s2 : String} (hv1 : valid_seq s1) (hv2 : valid_seq s2)
    (hlen : s1.length = s2.length) :
    hamming_distance s1 s2
      = Except.ok (hamming_distance_arr (mask_array s1) (mask_array s2)) := by
  unfold hamming_distance
  rw [if_neg (by omega)]
  rw [sequence_to_array_none_of_valid hv1, sequence_to_array_none_of_valid hv2]

/-- Rectangularity of a list-of-rows matrix. -/
def rect (m : List (List ℕ)) (n : ℕ) : Prop :=
  m.length = n ∧ ∀ row ∈ m, row.length = n

theorem getD_set_list (l : List α) (i j : ℕ) (v d : α) :
    (l.set i v).getD j d = if i = j ∧ j < l.length then v else l.getD j d := by
  rw [List.getD_eq_getElem?_getD, List.getElem?_set]
  by_cases hij : i = j
  · subst hij
    by_cases hlt : i < l.length
    · simp [hlt]
    · simp only [if_pos rfl, if_neg hlt, hlt, and_false, if_false]
      rw [List.getD_eq_getElem?_getD, List.getElem?_eq_none (by omega)]
      rfl
  · simp [hij, List.getD_eq_getElem?_getD]

theorem rect_set_entry {m : List (List ℕ)} {n : ℕ} (h : rect m n)
    {i : ℕ} (hi : i < n) (j : ℕ) (v : ℕ) : rect (set_entry m i j v) n := by
  obtain ⟨hlen, hrow⟩ := h
  refine ⟨by simp [set_entry, hlen], ?_⟩
  intro row hrowmem
  rcases List.mem_or_eq_of_mem_set hrowmem with h' | h'
  · exact hrow row h'
  · subst h'
    rw [List.length_set]
    have hilen : i < m.length := by omega
    have : m.getD i [] ∈ m := by
      rw [List.getD_eq_getElem?_getD, List.getElem?_eq_getElem hilen]
      exact List.getElem_mem hilen
    exact hrow _ this

theorem entry_set_entry {m : List (List ℕ)} {n : ℕ} (h : rect m n)
    {i j a b : ℕ} (hi : i < n) (hj : j < n) (hb : b < n) (v : ℕ) :
    entry (set_entry m i j v) a b = if a = i ∧ b = j then v else entry m a b := by
  obtain ⟨hlen, hrow⟩ := h
  unfold entry set_entry
  rw [getD_set_list]
  by_cases hai : i = a
  · obtain rfl := hai
    rw [if_pos ⟨rfl, by omega⟩]
    have hrowlen : (m.getD i []).length = n := by
      have hilen : i < m.length := by omega
      have : m.getD i [] ∈ m := by
        rw [List.getD_eq_getElem?_getD, List.getElem?_eq_getElem hilen]
        exact List.getElem_mem hilen
      exact hrow _ this
    rw [getD_set_list]
    by_cases hbj : j = b
    · obtain rfl := hbj
      rw [if_pos ⟨rfl, by omega⟩, if_pos ⟨rfl, rfl⟩]
    · rw [if_neg (fun hh => hbj hh.1), if_neg (fun hh => hbj hh.2.symm)]
  · rw [if_neg (fun hh => hai hh.1), if_neg (fun hh => hai hh.1.symm)]

theorem min_max_determine {a b i t : ℕ} (hmin : min a b = i) (hmax : max a b = t) :
    (a = i ∧ b = t) ∨ (a = t ∧ b = i) := by
  rcases Nat.le_total a b with h | h
  · left
    omega
  · right
    omega

/-- Invariant of the inner loop of `_pairwise_hamming_distances` (row `i`,
remaining columns `t, t+1, ..., n-1`): the processed cells hold the distance
of their sorted index pair, the rest still hold the zero initialisation. -/
theorem pair_row_inv (arrs : List EncSeq) (n : ℕ) (i : ℕ) (hi : i < n) :
    ∀ (c t : ℕ) (m : List (List ℕ)), t + c = n → i ≤ t → rect m n →
      (∀ a b, a < n → b < n → entry m a b
        = if min a b < i ∨ (min a b = i ∧ max a b < t)
          then hamming_distance_arr (arrs.getD (min a b) []) (arrs.getD (max a b) [])
          else 0) →
      rect ((List.range' t c).foldl (fun m j => pair_write arrs m i j) m) n ∧
      (∀ a b, a < n → b < n →
        entry ((List.range' t c).foldl (fun m j => pair_write arrs m i j) m) a b
        = if min a b ≤ i
          then hamming_distance_arr (arrs.getD (min a b) []) (arrs.getD (max a b) [])
          else 0) := by
  intro c
  induction c with
  | zero =>
    intro t m htc hit hrect hm
    have ht : t = n := by omega
    subst ht
    simp only [List.range'_zero, List.foldl_nil]
    refine ⟨hrect, ?_⟩
    intro a b ha hb
    rw [hm a b ha hb]
    have hcond : (min a b < i ∨ (min a b = i ∧ max a b < t))
        ↔ min a b ≤ i := by omega
    rw [if_congr hcond rfl rfl]
  | succ c ih =>
    intro t m htc hit hrect hm
    have ht : t < n := by omega
    rw [List.range'_succ, List.foldl_cons]
    have hrect1 : rect (pair_write arrs m i t) n := by
      unfold pair_write
      exact rect_set_entry (rect_set_entry hrect hi t _) ht i _
    have hmint : min t i = i := by omega
    have hmaxt : max t i = t := by omega
    have hminit : min i t = i := by omega
    have hmaxit : max i t = t := by omega
    have hm1 : ∀ a b, a < n → b < n → entry (pair_write arrs m i t) a b
        = if min a b < i ∨ (min a b = i ∧ max a b < t + 1)
          then hamming_distance_arr (arrs.getD (min a b) []) (arrs.getD (max a b) [])
          else 0 := by
      intro a b ha hb
      unfold pair_write
      rw [entry_set_entry (rect_set_entry hrect hi t _) ht hi hb,
        entry_set_entry hrect hi ht hb]
      by_cases h1 : a = t ∧ b = i
      · obtain ⟨rfl, rfl⟩ := h1
        rw [if_pos ⟨rfl, rfl⟩]
        rw [if_pos (by rw [hmint, hmaxt]; omega), hmint, hmaxt]
      · rw [if_neg h1]
        by_cases h2 : a = i ∧ b = t
        · obtain ⟨rfl, rfl⟩ := h2
          rw [if_pos ⟨rfl, rfl⟩]
          rw [if_pos (by rw [hminit, hmaxit]; omega), hminit, hmaxit]
        · rw [if_neg h2, hm a b ha hb]
          have hnot : ¬ (min a b = i ∧ max a b = t) := by
            intro ⟨hmn, hmx⟩
            rcases min_max_determine hmn hmx with h' | h'
            · exact h2 h'
            · exact h1 h'
          have hcond : (min a b < i ∨ (min a b = i ∧ max a b < t))
              ↔ (min a b < i ∨ (min a b = i ∧ max a b < t + 1)) := by
            constructor
            · intro h'
              rcases h' with h' | ⟨h'1, h'2⟩
              · exact Or.inl h'
              · exact Or.inr ⟨h'1, by omega⟩
            · intro h'
              rcases h' with h' | ⟨h'1, h'2⟩
              · exact Or.inl h'
              · refine Or.inr ⟨h'1, ?_⟩
                have : max a b ≠ t := fun hh => hnot ⟨h'1, hh⟩
                omega
          rw [if_congr hcond rfl rfl]
    exact ih (t + 1) (pair_write arrs m i t) (by omega) (by omega) hrect1 hm1

/-- Invariant of the outer loop of `_pairwise_hamming_distances`. -/
theorem pairwise_outer_inv (arrs : List EncSeq) (n : ℕ) (hn : n = arrs.length) :
    ∀ (c k : ℕ) (m : List (List ℕ)), k + c = n → rect m n →
      (∀ a b, a < n → b < n → entry m a b
        = if min a b < k
          then hamming_distance_arr (arrs.getD (min a b) []) (arrs.getD (max a b) [])
          else 0) →
      rect ((List.range' k c).foldl (fun m i => pair_row arrs n m i) m) n ∧
      (∀ a b, a < n → b < n →
        entry ((List.range' k c).foldl (fun m i => pair_row arrs n m i) m) a b
        = hamming_distance_arr (arrs.getD (min a b) []) (arrs.getD (max a b) [])) := by
  intro c
  induction c with
  | zero =>
    intro k m hkc hrect hm
    have hk : k = n := by omega
    subst hk
    simp only [List.range'_zero, List.foldl_nil]
    refine ⟨hrect, ?_⟩
    intro a b ha hb
    rw [hm a b ha hb]
    rw [if_pos (by omega)]
  | succ c ih =>
    intro k m hkc hrect hm
    have hk : k < n := by omega
    rw [List.range'_succ, List.foldl_cons]
    have hinner := pair_row_inv arrs n k hk (n - k) k m (by omega) (le_refl k) hrect
      (by
        intro a b ha hb
        rw [hm a b ha hb]
        have hcond : (min a b < k)
            ↔ (min a b < k ∨ (min a b = k ∧ max a b < k)) := by omega
        rw [if_congr hcond rfl rfl])
    have hrow : pair_row arrs n m k
        = (List.range' k (n - k)).foldl (fun m j => pair_write arrs m k j) m := rfl
    rw [hrow]
    apply ih (k + 1) _ (by omega) hinner.1
    intro a b ha hb
    rw [hinner.2 a b ha hb]
    have hcond : (min a b ≤ k) ↔ (min a b < k + 1) := by omega
    rw [if_congr hcond rfl rfl]

theorem getD_replicate_self (n : ℕ) (x : α) (i : ℕ) (d : α) :
    (List.replicate n x).getD i d = if i < n then x else d := by
  induction n generalizing i with
  | zero => simp
  | succ n ih =>
    rcases i with _ | i
    · simp [List.replicate_succ]
    · simp only [List.replicate_succ, List.getD_cons_succ, ih]
      by_cases h : i < n
      · rw [if_pos h, if_pos (by omega)]
      · rw [if_neg h, if_neg (by omega)]

/-- The pairwise-distance matrix characterisation: after both loops, every
cell `(a, b)` holds the distance between the arrays of the sorted pair. -/
theorem pairwise_loop_entry (arrs : List EncSeq) :
    rect (pairwise_loop arrs) arrs.length ∧
    ∀ a b, a < arrs.length → b < arrs.length →
      entry (pairwise_loop arrs) a b
        = hamming_distance_arr (arrs.getD (min a b) []) (arrs.getD (max a b) []) := by
  simp only [pairwise_loop, List.range_eq_range']
  apply pairwise_outer_inv arrs arrs.length rfl arrs.length 0 _ (by omega)
  · constructor
    · simp
    · intro row hrow
      rw [List.eq_of_mem_replicate hrow]
      simp
  · intro a b ha hb
    unfold entry
    rw [getD_replicate_self, if_pos ha, getD_replicate_self, if_pos hb]
    rw [if_neg (by omega)]

theorem mapM_ok_map {β : Type} (l : List α) (f : α → Except String β) (g : α → β)
    (h : ∀ x ∈ l, f x = Except.ok (g x)) : l.mapM f = Except.ok (l.map g) := by
  induction l with
  | nil => rfl
  | cons x xs ih =>
    rw [List.mapM_cons, h x (List.mem_cons_self x xs),
      ih (fun a ha => h a (List.mem_cons_of_mem x ha))]
    rfl

theorem getD_map_mask (ss : List String) (i : ℕ) (hi : i < ss.length) :
    (ss.map mask_array).getD i [] = mask_array (ss.getD i "") := by
  rw [List.getD_eq_getElem?_getD, List.getD_eq_getElem?_getD,
    List.getElem?_eq_getElem (by simpa using hi), List.getElem?_eq_getElem hi]
  simp

/-- **C8**: `hamming_distance` is zero on the diagonal and symmetric on valid
equal-length inputs, and `pairwise_hamming_distances` returns a symmetric
matrix with zero diagonal. -/
theorem C8_hamming_properties :
    (∀ s : String, valid_seq s → hamming_distance s s = Except.ok 0) ∧
    (∀ s1 s2 : String, valid_seq s1 → valid_seq s2 → s1.length = s2.length →
      hamming_distance s1 s2 = hamming_distance s2 s1) ∧
    (∀ ss : List String, (∀ s ∈ ss, valid_seq s) →
      (∀ s ∈ ss, s.length = (ss.headD "").length) →
      ∃ M, pairwise_hamming_distances ss = Except.ok M ∧
        M.length = ss.length ∧ (∀ row ∈ M, row.length = ss.length) ∧
        (∀ i j, i < ss.length → j < ss.length → entry M i j = entry M j i) ∧
        (∀ i, i < ss.length → entry M i i = 0)) := by
  refine ⟨?_, ?_, ?_⟩
  · intro s hv
    rw [hamming_distance_eq hv hv rfl, hamming_self_zero hv]
  · intro s1 s2 hv1 hv2 hlen
    rw [hamming_distance_eq hv1 hv2 hlen, hamming_distance_eq hv2 hv1 hlen.symm,
      hamming_distance_arr_comm]
  · intro ss hv hlen
    have hc : ¬ ((ss.any (fun s => decide (s.length ≠ (ss.headD "").length))) = true) := by
      rw [List.any_eq_true]
      intro ⟨s, hs, hsd⟩
      exact (decide_eq_true_eq.mp hsd) (hlen s hs)
    have hmapM : ss.mapM (fun s => sequence_to_array s none)
        = Except.ok (ss.map mask_array) :=
      mapM_ok_map ss _ mask_array (fun s hs => sequence_to_array_none_of_valid (hv s hs))
    have hP := pairwise_loop_entry (ss.map mask_array)
    have hmlen : (ss.map mask_array).length = ss.length := List.length_map ss mask_array
    refine ⟨pairwise_loop (ss.map mask_array), ?_, ?_, ?_, ?_, ?_⟩
    · unfold pairwise_hamming_distances
      rw [if_neg hc, hmapM]
    · rw [hP.1.1, hmlen]
    · intro row hrow
      rw [hP.1.2 row hrow, hmlen]
    · intro i j hi hj
      rw [hP.2 i j (by omega) (by omega), hP.2 j i (by omega) (by omega),
        min_comm j i, max_comm j i]
    · intro i hi
      rw [hP.2 i i (by omega) (by omega), min_self, max_self,
        getD_map_mask ss i hi]
      have hgd : ss.getD i "" = ss.get ⟨i, hi⟩ := by
        rw [List.getD_eq_getElem?_getD, List.getElem?_eq_getElem hi, List.get_eq_getElem]
        rfl
      apply hamming_self_zero
      rw [hgd]
      exact hv _ (List.get_mem _ _ _)

/-- Witness for C8: self distance of `"AN"`, symmetry on `"AC"/"AG"`, and
the pairwise matrix of `["AC", "AG"]`. -/
theorem C8_witness :
    hamming_distance "AN" "AN" = Except.ok 0 ∧
    hamming_distance "AC" "AG" = hamming_distance "AG" "AC" ∧
    (∃ M, pairwise_hamming_distances ["AC", "AG"] = Except.ok M ∧
      M.length = (["AC", "AG"] : List String).length ∧
      (∀ row ∈ M, row.length = (["AC", "AG"] : List String).length) ∧
      (∀ i j, i < (["AC", "AG"] : List String).length →
        j < (["AC", "AG"] : List String).length → entry M i j = entry M j i) ∧
      (∀ i, i < (["AC", "AG"] : List String).length → entry M i i = 0)) :=
  ⟨C8_hamming_properties.1 "AN" (by decide),
   C8_hamming_properties.2.1 "AC" "AG" (by decide) (by decide) (by decide),
   C8_hamming_properties.2.2 ["AC", "AG"] (by decide) (by decide)⟩

/-! ### Claim theorems: probabilistic tie-breaking (C9) -/

theorem enumFrom_pairwise_fst (l : List α) :
    ∀ k : ℕ, List.Pairwise (fun x y => x.1 < y.1) (List.enumFrom k l) := by
  induction l with
  | nil => intro k; simp
  | cons x xs ih =>
    intro k
    rw [List.enumFrom_cons]
    refine List.Pairwise.cons ?_ (ih (k + 1))
    intro y hy
    rcases y with ⟨i, a⟩
    have := List.mem_enumFrom hy
    simp only
    omega

/-- The candidate indices produced by `_mismatch_masks` are strictly
increasing (the whitelist is scanned in order). -/
theorem mismatch_masks_pairwise (sequence : EncSeq) (whitelist : List EncSeq) (d : ℕ) :
    List.Pairwise (fun x y => x.1 < y.1) (mismatch_masks sequence whitelist d) := by
  unfold mismatch_masks
  rw [List.pairwise_filterMap]
  have h : List.Pairwise (fun x y => x.1 < y.1) whitelist.enum :=
    enumFrom_pairwise_fst whitelist 0
  apply h.imp
  intro a a' hlt b hb b' hb'
  simp only at hb hb'
  split at hb
  · exact absurd hb (by simp)
  · split at hb'
    · exact absurd hb' (by simp)
    · injection hb with hb
      injection hb' with hb'
      rw [← hb, ← hb']
      exact hlt

/-- Specification of the running-maximum fold of `_correct_to_whitelist`:
either no candidate beats the initial state, or the result is the *first*
candidate attaining the maximum likelihood. -/
theorem best_fold_spec (quals : List ℕ) (props : List ℚ) :
    ∀ (cands : List (ℕ × List Bool)) (st : ℤ × WithBot ℚ),
      (cands.foldl
        (fun (st : ℤ × WithBot ℚ) im =>
          if st.2 < ((log10_likelihood quals props im : ℚ) : WithBot ℚ)
          then ((im.1 : ℤ), ((log10_likelihood quals props im : ℚ) : WithBot ℚ))
          else st)
        st = st ∧
        ∀ q ∈ cands, ((log10_likelihood quals props q : ℚ) : WithBot ℚ) ≤ st.2) ∨
      (∃ p, p < cands.length ∧
        cands.foldl
          (fun (st : ℤ × WithBot ℚ) im =>
            if st.2 < ((log10_likelihood quals props im : ℚ) : WithBot ℚ)
            then ((im.1 : ℤ), ((log10_likelihood quals props im : ℚ) : WithBot ℚ))
            else st)
          st
          = (((cands.getD p (0, [])).1 : ℤ),
             ((log10_likelihood quals props (cands.getD p (0, [])) : ℚ) : WithBot ℚ)) ∧
        st.2 < ((log10_likelihood quals props (cands.getD p (0, [])) : ℚ) : WithBot ℚ) ∧
        (∀ q, q < cands.length →
          log10_likelihood quals props (cands.getD q (0, []))
            ≤ log10_likelihood quals props (cands.getD p (0, []))) ∧
        (∀ q, q < p →
          log10_likelihood quals props (cands.getD q (0, []))
            < log10_likelihood quals props (cands.getD p (0, [])))) := by
  intro cands
  induction cands with
  | nil =>
    intro st
    left
    exact ⟨rfl, by simp⟩
  | cons x xs ih =>
    intro st
    rw [List.foldl_cons]
    by_cases hx : st.2 < ((log10_likelihood quals props x : ℚ) : WithBot ℚ)
    · rw [if_pos hx]
      rcases ih (((x.1 : ℤ)), ((log10_likelihood quals props x : ℚ) : WithBot ℚ)) with
        ⟨hres, hall⟩ | ⟨p, hp, hres, hgt, hmax, hfirst⟩
      · right
        refine ⟨0, by simp, by simpa using hres, by simpa using hx, ?_, by omega⟩
        intro q hq
        rcases q with _ | q
        · simp
        · have hmem : xs.getD q (0, []) ∈ xs := by
            have hq' : q < xs.length := by simpa using hq
            rw [List.getD_eq_getElem?_getD, List.getElem?_eq_getElem hq']
            exact List.getElem_mem hq'
          have h2 : ((log10_likelihood quals props (xs.getD q (0, [])) : ℚ) : WithBot ℚ)
              ≤ ((log10_likelihood quals props x : ℚ) : WithBot ℚ) := hall _ hmem
          simp only [List.getD_cons_succ, List.getD_cons_zero]
          exact_mod_cast h2
      · right
        refine ⟨p + 1, by simpa using hp, by simpa using hres, ?_, ?_, ?_⟩
        · simp only [List.getD_cons_succ]
          exact lt_trans hx hgt
        · intro q hq
          rcases q with _ | q
          · simp only [List.getD_cons_succ, List.getD_cons_zero]
            have := WithBot.coe_lt_coe.mp hgt
            exact le_of_lt this
          · simp only [List.getD_cons_succ]
            exact hmax q (by simpa using hq)
        · intro q hq
          rcases q with _ | q
          · simp only [List.getD_cons_succ, List.getD_cons_zero]
            exact WithBot.coe_lt_coe.mp hgt
          · simp only [List.getD_cons_succ]
            exact hfirst q (by omega)
    · rw [if_neg hx]
      rcases ih st with ⟨hres, hall⟩ | ⟨p, hp, hres, hgt, hmax, hfirst⟩
      · left
        refine ⟨hres, ?_⟩
        intro q hq
        rcases List.mem_cons.mp hq with h | h
        · subst h
          exact le_of_not_lt hx
        · exact hall q h
      · right
        refine ⟨p + 1, by simpa using hp, by simpa using hres, ?_, ?_, ?_⟩
        · simp only [List.getD_cons_succ]
          exact hgt
        · intro q hq
          rcases q with _ | q
          · simp only [List.getD_cons_succ, List.getD_cons_zero]
            have h1 : ((log10_likelihood quals props x : ℚ) : WithBot ℚ) ≤ st.2 :=
              le_of_not_lt hx
            have h2 := lt_of_le_of_lt h1 hgt
            exact le_of_lt (WithBot.coe_lt_coe.mp h2)
          · simp only [List.getD_cons_succ]
            exact hmax q (by simpa using hq)
        · intro q hq
          rcases q with _ | q
          · simp only [List.getD_cons_succ, List.getD_cons_zero]
            have h1 : ((log10_likelihood quals props x : ℚ) : WithBot ℚ) ≤ st.2 :=
              le_of_not_lt hx
            exact WithBot.coe_lt_coe.mp (lt_of_le_of_lt h1 hgt)
          · simp only [List.getD_cons_succ]
            exact hfirst q (by omega)

/-- **C9** (code bug): the multi-candidate likelihood tie-break the claim
describes never executes.  At the only call of `_correct_to_whitelist`
(source line 475) a read's cached `(k, L)` mask stack is passed as
`.reshape(1, -1)` — a single row of length `k*L` — so the
`zip(indices, masks)` inside `_correct_to_whitelist` pairs only the first
candidate index with that row, and for `k >= 2` candidates the row is a
malformed boolean index for the length-`L` quality array (an `IndexError`
under numpy's boolean-indexing shape rule).  Concretely for the read `AT`
against whitelist `[AA, AG]` with `d = 1`: two candidates (whitelist indices
`0` and `1`) are cached, the zip retains exactly one pair, and the call
errors instead of comparing the two likelihoods. -/
theorem C9_code_eval :
    (mismatch_masks (mask_array "AT") [mask_array "AA", mask_array "AG"] 1).map Prod.fst
      = [0, 1]
    ∧ (((mismatch_masks (mask_array "AT") [mask_array "AA", mask_array "AG"] 1).map
          Prod.fst).zip
        (reshape_1_row
          ((mismatch_masks (mask_array "AT") [mask_array "AA", mask_array "AG"] 1).map
            Prod.snd))).length = 1
    ∧ phase3_call [30, 30]
        (mismatch_masks (mask_array "AT") [mask_array "AA", mask_array "AG"] 1) [-1, -1]
      = Except.error "IndexError: boolean index did not match indexed array" :=
  ⟨rfl, rfl, rfl⟩

theorem tie_break_smallest_index (qualities : List ℕ) (seq : EncSeq)
    (whitelist : List EncSeq) (d : ℕ) (log10_proportions : List ℚ)
    (hne : mismatch_masks seq whitelist d ≠ []) :
    ∃ p, p < (mismatch_masks seq whitelist d).length ∧
      correct_to_whitelist_best qualities (mismatch_masks seq whitelist d) log10_proportions
        = (((mismatch_masks seq whitelist d).getD p (0, [])).1 : ℤ) ∧
      (∀ q, q < (mismatch_masks seq whitelist d).length →
        log10_likelihood qualities log10_proportions
            ((mismatch_masks seq whitelist d).getD q (0, []))
          ≤ log10_likelihood qualities log10_proportions
            ((mismatch_masks seq whitelist d).getD p (0, []))) ∧
      (∀ q, q < (mismatch_masks seq whitelist d).length →
        log10_likelihood qualities log10_proportions
            ((mismatch_masks seq whitelist d).getD q (0, []))
          = log10_likelihood qualities log10_proportions
            ((mismatch_masks seq whitelist d).getD p (0, [])) →
        ((mismatch_masks seq whitelist d).getD p (0, [])).1
          ≤ ((mismatch_masks seq whitelist d).getD q (0, [])).1) := by
  rcases best_fold_spec qualities log10_proportions (mismatch_masks seq whitelist d)
      (-1, ⊥) with ⟨_, hall⟩ | ⟨p, hp, hres, _, hmax, hfirst⟩
  · exfalso
    rcases List.exists_mem_of_ne_nil _ hne with ⟨x, hx⟩
    have := hall x hx
    simp at this
  · refine ⟨p, hp, ?_, hmax, ?_⟩
    · unfold correct_to_whitelist_best
      rw [hres]
    · intro q hq heq
      rcases Nat.lt_or_ge q p with hqp | hqp
      · exact absurd heq (ne_of_lt (hfirst q hqp))
      · rcases Nat.eq_or_lt_of_le hqp with h | h
        · rw [← h]
        · have hsorted := mismatch_masks_pairwise seq whitelist d
          rw [List.pairwise_iff_getElem] at hsorted
          have hlt := hsorted p q hp hq h
          have hgp : (mismatch_masks seq whitelist d).getD p (0, [])
              = (mismatch_masks seq whitelist d).get ⟨p, hp⟩ := by
            rw [List.getD_eq_getElem?_getD, List.getElem?_eq_getElem hp, List.get_eq_getElem]
            rfl
          have hgq : (mismatch_masks seq whitelist d).getD q (0, [])
              = (mismatch_masks seq whitelist d).get ⟨q, hq⟩ := by
            rw [List.getD_eq_getElem?_getD, List.getElem?_eq_getElem hq, List.get_eq_getElem]
            rfl
          rw [hgp, hgq, List.get_eq_getElem, List.get_eq_getElem]
          exact le_of_lt hlt


/-! ### Claim theorems: unique exact-match correction (C5) -/

theorem mem_insert_sorted {x y : String} {l : List String} :
    y ∈ insert_sorted x l ↔ y = x ∨ y ∈ l := by
  induction l with
  | nil => simp [insert_sorted]
  | cons z zs ih =>
    unfold insert_sorted
    by_cases h : string_le x z = true
    · rw [if_pos h]
      simp
    · rw [if_neg h]
      simp only [List.mem_cons, ih]
      tauto

theorem mem_sort_strings {x : String} {l : List String} :
    x ∈ sort_strings l ↔ x ∈ l := by
  induction l with
  | nil => simp [sort_strings]
  | cons z zs ih =>
    unfold sort_strings
    rw [mem_insert_sorted, ih]
    simp

theorem mem_sorted_unique {x : String} {l : List String} :
    x ∈ sorted_unique l ↔ x ∈ l := by
  unfold sorted_unique
  rw [mem_sort_strings, List.mem_dedup]

/-- The whitelist indices at Hamming distance `0` from an encoded read, in
ascending order. -/
def distance_zero_indices (a : EncSeq) (wl : List EncSeq) : List ℕ :=
  wl.enum.filterMap (fun ib =>
    if hamming_distance_arr a ib.2 = 0 then some ib.1 else none)

/-- The `match_indices` computed from the distance-`d` neighbor cache are
exactly the distance-`0` whitelist indices (a distance-`0` neighbor always
passes the `<= d` filter). -/
theorem match_indices_eq_distance_zero (a : EncSeq) (wl : List EncSeq) (d : ℕ) :
    match_indices_of (mismatch_masks a wl d) = distance_zero_indices a wl := by
  unfold match_indices_of mismatch_masks distance_zero_indices
  rw [List.filterMap_filterMap]
  apply List.filterMap_congr
  intro ib _
  by_cases hd : d < mask_sum (mismatch_mask a ib.2)
  · rw [if_pos hd]
    have : ¬ (hamming_distance_arr a ib.2 = 0) := by
      unfold hamming_distance_arr
      omega
    rw [if_neg this]
    rfl
  · rw [if_neg hd]
    unfold hamming_distance_arr
    show (if mask_sum (mismatch_mask a ib.2) = 0 then some ib.1 else none) = _
    rfl

theorem match_entry_key {whitelist : List String} {sc : String × List (ℕ × List Bool)}
    {e : String × String} (h : match_entry whitelist sc = some e) : e.1 = sc.1 := by
  unfold match_entry at h
  by_cases h1 : sc.2.isEmpty = true
  · rw [if_pos h1] at h
    exact absurd h (by simp)
  · rw [if_neg h1] at h
    by_cases h2 : (match_indices_of sc.2).length = 1
    · rw [if_pos h2] at h
      injection h with h
      rw [← h]
    · rw [if_neg h2] at h
      exact absurd h (by simp)

/-- The `matches` table accumulated by the step-1 fold is the concatenation of
the per-read contributions, in read order. -/
theorem fold_match_table (sequences : List String) (whitelist : List String) :
    ∀ (cache : List (String × List (ℕ × List Bool))) (wc : List ℤ)
      (mt : List (String × String)),
      (cache.foldl (step1_fold_step sequences whitelist) (wc, mt)).2
        = mt ++ cache.filterMap (match_entry whitelist) := by
  intro cache
  induction cache with
  | nil => intro wc mt; simp
  | cons sc rest ih =>
    intro wc mt
    rw [List.foldl_cons, List.filterMap_cons]
    show ((rest.foldl (step1_fold_step sequences whitelist)
      (step1_fold_step sequences whitelist (wc, mt) sc)).2) = _
    by_cases h1 : sc.2.isEmpty = true
    · have hstep : step1_fold_step sequences whitelist (wc, mt) sc = (wc, mt) := by
        unfold step1_fold_step
        rw [if_pos h1]
      have hme : match_entry whitelist sc = none := by
        unfold match_entry
        rw [if_pos h1]
      rw [hstep, hme, ih wc mt]
    · have hstep : step1_fold_step sequences whitelist (wc, mt) sc
          = ((match_indices_of sc.2).foldl
              (fun wc m => wc.set m
                (Int.floor ((wc.getD m 0 : ℚ) +
                  (sequences.count (whitelist.getD m "") : ℚ)
                    / ((match_indices_of sc.2).length : ℚ)))) wc,
             match match_entry whitelist sc with
             | some e => mt ++ [e]
             | none => mt) := by
        unfold step1_fold_step
        rw [if_neg h1]
      rw [hstep]
      rcases hme : match_entry whitelist sc with _ | e
      · rw [ih _ mt]
      · rw [ih _ (mt ++ [e]), List.append_assoc]
        rfl

theorem lookup_filterMap_match (whitelist : List String)
    (F : String → String × List (ℕ × List Bool)) (hF : ∀ s, (F s).1 = s) :
    ∀ (uniq : List String) (r : String) (v : String), r ∈ uniq →
      match_entry whitelist (F r) = some (r, v) →
      List.lookup r ((uniq.map F).filterMap (match_entry whitelist)) = some v := by
  intro uniq
  induction uniq with
  | nil => intro r v hr; simp at hr
  | cons u rest ih =>
    intro r v hr hme
    rw [List.map_cons, List.filterMap_cons]
    by_cases hru : r = u
    · subst hru
      rw [hme]
      simp [List.lookup]
    · rcases hmu : match_entry whitelist (F u) with _ | e
      · exact ih r v (by rcases List.mem_cons.mp hr with h | h; exact absurd h hru; exact h) hme
      · have hkey : e.1 = u := by
          rw [match_entry_key hmu, hF u]
        have hbeq : (r == e.1) = false := by
          rw [hkey]
          exact beq_false_of_ne hru
        rw [List.lookup_cons]
        rw [hbeq]
        exact ih r v (by rcases List.mem_cons.mp hr with h | h; exact absurd h hru; exact h) hme

theorem enum_map_getD (cor : List (Option String)) (phase3 : ℕ → Option String)
    (i : ℕ) (hi : i < cor.length) :
    ((cor.enum).map (fun ic =>
      match ic.2 with
      | some s => some s
      | none => phase3 ic.1)).getD i none
      = match cor.getD i none with
        | some s => some s
        | none => phase3 i := by
  have hie : i < cor.enum.length := by simpa using hi
  rw [List.getD_eq_getElem?_getD,
    List.getElem?_eq_getElem (by simpa using hi),
    List.getElem_map, List.getElem_enum,
    List.getD_eq_getElem?_getD, List.getElem?_eq_getElem hi]
  rfl

/-- On valid inputs step 1 succeeds, with the cache listing each distinct
read's neighbors and the corrections looked up in the accumulated `matches`
table. -/
theorem correct_step1_spec (sequences whitelist : List String) (d : ℕ)
    (hvs : ∀ s ∈ sequences, valid_seq s) (hvw : ∀ b ∈ whitelist, valid_seq b) :
    correct_step1 sequences whitelist d = Except.ok
      { mismatch_cache := (sorted_unique sequences).map
          (fun s => (s, mismatch_masks (mask_array s) (whitelist.map mask_array) d))
        whitelist_counts := (((sorted_unique sequences).map
          (fun s => (s, mismatch_masks (mask_array s) (whitelist.map mask_array) d))).foldl
          (step1_fold_step sequences whitelist)
          (List.replicate whitelist.length 0, [])).1
        match_table := (((sorted_unique sequences).map
          (fun s => (s, mismatch_masks (mask_array s) (whitelist.map mask_array) d))).foldl
          (step1_fold_step sequences whitelist)
          (List.replicate whitelist.length 0, [])).2
        corrections := sequences.map (fun s => ((((sorted_unique sequences).map
          (fun s => (s, mismatch_masks (mask_array s) (whitelist.map mask_array) d))).foldl
          (step1_fold_step sequences whitelist)
          (List.replicate whitelist.length 0, [])).2).lookup s) } := by
  have hwl : whitelist.mapM (fun bc => sequence_to_array bc none)
      = Except.ok (whitelist.map mask_array) :=
    mapM_ok_map _ _ _ (fun b hb => sequence_to_array_none_of_valid (hvw b hb))
  have hcache : (sorted_unique sequences).mapM (fun seq =>
      match sequence_to_array seq none with
      | Except.error e => Except.error e
      | Except.ok arr => Except.ok (seq, mismatch_masks arr (whitelist.map mask_array) d))
      = Except.ok ((sorted_unique sequences).map
          (fun s => (s, mismatch_masks (mask_array s) (whitelist.map mask_array) d))) := by
    apply mapM_ok_map
    intro x hx
    rw [sequence_to_array_none_of_valid (hvs x (mem_sorted_unique.mp hx))]
  simp only [correct_step1, hwl, hcache]

/-- **C5**: for every distinct read `r` with exactly one whitelist neighbor at
distance `0` (index `w`), every occurrence of `r` is corrected to
`whitelist[w]`, independently of the quality values and of the probabilistic
phase (which only fills entries still unresolved after step 1). -/
theorem C5_unique_exact_match (phase3 : ℕ → Option String)
    (sequences : List String) (qualities : List (List ℕ)) (whitelist : List String)
    (d : ℕ) (r : String) (w : ℕ)
    (hcard : sequences.length = qualities.length)
    (hlen : ∀ p ∈ sequences.zip qualities, p.1.length = p.2.length)
    (hwnodup : whitelist.Nodup)
    (hsuni : ∀ s ∈ sequences, s.length = (sequences.headD "").length)
    (hwuni : ∀ b ∈ whitelist, b.length = (whitelist.headD "").length)
    (hsw : (sequences.headD "").length = (whitelist.headD "").length)
    (hsne : sequences ≠ []) (hwne : whitelist ≠ [])
    (hvs : ∀ s ∈ sequences, valid_seq s) (hvw : ∀ b ∈ whitelist, valid_seq b)
    (hr : r ∈ sequences)
    (hzero : distance_zero_indices (mask_array r) (whitelist.map mask_array) = [w]) :
    ∃ out, correct_sequences_to_whitelist phase3 sequences qualities whitelist d
        = Except.ok out ∧
      out.length = sequences.length ∧
      ∀ i, i < sequences.length → sequences.getD i "" = r →
        out.getD i none = some (whitelist.getD w "") := by
  have hstep1 := correct_step1_spec sequences whitelist d hvs hvw
  -- the per-read cache entry for r and its match_entry
  have hmi : match_indices_of (mismatch_masks (mask_array r) (whitelist.map mask_array) d)
      = [w] := by
    rw [match_indices_eq_distance_zero]
    exact hzero
  have hne_cached : (mismatch_masks (mask_array r) (whitelist.map mask_array) d).isEmpty
      = false := by
    rcases hmm : mismatch_masks (mask_array r) (whitelist.map mask_array) d with _ | _
    · rw [hmm] at hmi
      simp [match_indices_of] at hmi
    · rfl
  have hentry : match_entry whitelist
      (r, mismatch_masks (mask_array r) (whitelist.map mask_array) d)
      = some (r, whitelist.getD w "") := by
    unfold match_entry
    rw [if_neg (by simp [hne_cached])]
    simp only [hmi]
    simp
  -- the matches table after the fold, and the lookup of r
  have hmt : (((sorted_unique sequences).map
      (fun s => (s, mismatch_masks (mask_array s) (whitelist.map mask_array) d))).foldl
      (step1_fold_step sequences whitelist)
      (List.replicate whitelist.length 0, [])).2
      = ((sorted_unique sequences).map
          (fun s => (s, mismatch_masks (mask_array s) (whitelist.map mask_array) d))).filterMap
          (match_entry whitelist) := by
    rw [fold_match_table]
    rw [List.nil_append]
  have hlookup : List.lookup r (((sorted_unique sequences).map
      (fun s => (s, mismatch_masks (mask_array s) (whitelist.map mask_array) d))).filterMap
      (match_entry whitelist)) = some (whitelist.getD w "") :=
    lookup_filterMap_match whitelist
      (fun s => (s, mismatch_masks (mask_array s) (whitelist.map mask_array) d))
      (fun _ => rfl) (sorted_unique sequences) r (whitelist.getD w "")
      (mem_sorted_unique.mpr hr) hentry
  -- assemble the top-level call
  have hc1 : ¬ (sequences.length ≠ qualities.length) := by omega
  have hc2 : ¬ (((sequences.zip qualities).any
      (fun sq => decide (sq.1.length ≠ sq.2.length))) = true) := by
    rw [List.any_eq_true]
    intro ⟨p, hp, hpd⟩
    exact (decide_eq_true_eq.mp hpd) (hlen p hp)
  have hc3 : ¬ ¬ whitelist.Nodup := not_not_intro hwnodup
  have hc4 : ¬ ((sequences.any
      (fun s => decide (s.length ≠ (sequences.headD "").length))) = true) := by
    rw [List.any_eq_true]
    intro ⟨s, hs, hsd⟩
    exact (decide_eq_true_eq.mp hsd) (hsuni s hs)
  have hc5 : ¬ ((whitelist.any
      (fun b => decide (b.length ≠ (whitelist.headD "").length))) = true) := by
    rw [List.any_eq_true]
    intro ⟨b, hb, hbd⟩
    exact (decide_eq_true_eq.mp hbd) (hwuni b hb)
  obtain ⟨s0, srest, hseq⟩ := List.exists_cons_of_ne_nil hsne
  obtain ⟨w0, wrest, hwl⟩ := List.exists_cons_of_ne_nil hwne
  subst hseq
  subst hwl
  have hsw2 : ¬ (s0.length ≠ w0.length) := by
    simp only [List.headD_cons] at hsw
    omega
  have hfull : correct_sequences_to_whitelist phase3 (s0 :: srest) qualities (w0 :: wrest) d
      = Except.ok ((((s0 :: srest).map (fun s => ((((sorted_unique (s0 :: srest)).map
          (fun s => (s, mismatch_masks (mask_array s) ((w0 :: wrest).map mask_array) d))).foldl
          (step1_fold_step (s0 :: srest) (w0 :: wrest))
          (List.replicate (w0 :: wrest).length 0, [])).2).lookup s)).enum).map (fun ic =>
            match ic.2 with
            | some s => some s
            | none => phase3 ic.1)) := by
    unfold correct_sequences_to_whitelist
    rw [if_neg hc1, if_neg hc2, if_neg hc3, if_neg hc4, if_neg hc5]
    show (if s0.length ≠ w0.length then
        Except.error "all sequences in `sequences` and `whitelist` must be of same length"
      else
        match correct_step1 (s0 :: srest) (w0 :: wrest) d with
        | Except.error e => Except.error e
        | Except.ok r =>
          Except.ok ((r.corrections.enum).map (fun ic =>
            match ic.2 with
            | some s => some s
            | none => phase3 ic.1))) = _
    rw [if_neg hsw2]
    simp only [hstep1]
  refine ⟨_, hfull, ?_, ?_⟩
  · simp only [List.length_map, List.enum_length]
  · intro i hi hri
    rw [enum_map_getD _ phase3 i (by simpa using hi)]
    have hgd : ((s0 :: srest).map (fun s => ((((sorted_unique (s0 :: srest)).map
        (fun s => (s, mismatch_masks (mask_array s) ((w0 :: wrest).map mask_array) d))).foldl
        (step1_fold_step (s0 :: srest) (w0 :: wrest))
        (List.replicate (w0 :: wrest).length 0, [])).2).lookup s)).getD i none
        = ((((sorted_unique (s0 :: srest)).map
        (fun s => (s, mismatch_masks (mask_array s) ((w0 :: wrest).map mask_array) d))).foldl
        (step1_fold_step (s0 :: srest) (w0 :: wrest))
        (List.replicate (w0 :: wrest).length 0, [])).2).lookup ((s0 :: srest).getD i "") := by
      rw [List.getD_eq_getElem?_getD, List.getElem?_eq_getElem (by simpa using hi),
        List.getElem_map, List.getD_eq_getElem?_getD, List.getElem?_eq_getElem hi]
      rfl
    rw [hgd, hri, hmt, hlookup]

/-- Witness for C5: two occurrences of read `"A"` against whitelist
`["A", "C"]`, arbitrary distinct qualities. -/
theorem C5_witness :
    ∃ out, correct_sequences_to_whitelist (fun _ => none) ["A", "A"] [[0], [93]] ["A", "C"] 1
        = Except.ok out ∧
      out.length = (["A", "A"] : List String).length ∧
      ∀ i, i < (["A", "A"] : List String).length →
        (["A", "A"] : List String).getD i "" = "A" →
        out.getD i none = some ((["A", "C"] : List String).getD 0 "") :=
  C5_unique_exact_match (fun _ => none) ["A", "A"] [[0], [93]] ["A", "C"] 1 "A" 0
    (by decide) (by decide) (by decide) (by decide) (by decide) (by decide)
    (by decide) (by decide) (by decide) (by decide) (by decide) (by decide)

/-! ### Claim C1: empirical count accumulation on ambiguous exact matches -/

/-- **C1 (code evaluation at the failing input)**: the reads `["N", "N"]`
both exactly match (distance `0`) the two whitelist entries `["A", "C"]`.
No correction is recorded for them, but the accumulated empirical counts are
`[0, 0]`: the loop adds `counts[whitelist[m]] / len(match_indices)` — the
occurrence count *of the whitelist string* among the reads (here `0` for both
`"A"` and `"C"`) — instead of the read's own occurrence count (`2`, which
split evenly would give `[1, 1]`). -/
theorem C1_code_eval :
    correct_step1 ["N", "N"] ["A", "C"] 1 = Except.ok
      { mismatch_cache := [("N", [(0, [false]), (1, [false])])]
        whitelist_counts := [0, 0]
        match_table := []
        corrections := [none, none] } := by
  have h : correct_step1 ["N", "N"] ["A", "C"] 1 = Except.ok
      { mismatch_cache := [("N", [(0, [false]), (1, [false])])]
        whitelist_counts :=
          [Int.floor ((((0 : ℤ) : ℚ)) + (((0 : ℕ) : ℚ)) / (((2 : ℕ) : ℚ))),
           Int.floor ((((0 : ℤ) : ℚ)) + (((0 : ℕ) : ℚ)) / (((2 : ℕ) : ℚ)))]
        match_table := []
        corrections := [none, none] } := rfl
  rw [h]
  simp only [Except.ok.injEq, Step1Result.mk.injEq]
  norm_num

end NgsTools
